import Mathlib

/-!
# Verification of the bill-extraction pipeline (`src/main.py`)

Shallow embedding of the extraction-and-reconciliation pipeline:

* `similarityQ` / `dedupe_items` — `similarity` and `dedupe_items`
  (main.py lines 147-161), with `difflib.SequenceMatcher.ratio()` modelled
  by its documented matching-block algorithm over `List Char`, and Python
  floats modelled by exact rationals (`ℚ`).
* a JSON value model with parser and serializer for `find_json`
  (main.py lines 97-105) composed with `json.loads` / `json.dumps`.
* `pdf_or_image_to_pages` (lines 79-94) over abstract decoder oracles.
* `extract_from_document` (lines 168-209) over an abstract model oracle.
-/

/-! ## Similarity: difflib.SequenceMatcher(None, a.lower(), b.lower()).ratio()

`main.py` line 148.  The matcher is modelled by difflib's documented
behaviour for inputs where no junk is in play (the code passes
`isjunk=None`; the `autojunk` popularity heuristic only triggers for
strings of 200+ characters and is not modelled): `find_longest_match`
returns the longest matching block, earliest in `a` and then earliest in
`b`, matching blocks are obtained by recursively splitting around the
longest match, and `ratio = 2*M/T` with `M` the total matched characters
and `T` the combined length.  Python's `str.lower` is modelled by the
ASCII case fold `Char.toLower`. -/

/-- Length of the common prefix run of two character lists. -/
def commonRun : List Char → List Char → Nat
  | x :: xs, y :: ys => if x = y then commonRun xs ys + 1 else 0
  | _, _ => 0

/-- Length of the matching run of `a` and `b` starting at positions `i`, `j`,
confined to the windows `[i, ahi)` and `[j, bhi)`. -/
def runLen (a b : List Char) (ahi bhi i j : Nat) : Nat :=
  commonRun ((a.take ahi).drop i) ((b.take bhi).drop j)

/-- Keep the strictly longer candidate block (ties keep the earlier one,
mirroring difflib's strict `k > bestsize` update as `i`, `j` scan upward). -/
def betterMatch (best cand : Nat × Nat × Nat) : Nat × Nat × Nat :=
  if best.2.2 < cand.2.2 then cand else best

/-- `difflib.SequenceMatcher.find_longest_match` on the windows
`a[alo:ahi]`, `b[blo:bhi]` with no junk: the longest matching block
`(i, j, k)`, earliest in `a`, then earliest in `b`; `(alo, blo, 0)` when
there is no match. -/
def findLongestMatch (a b : List Char) (alo ahi blo bhi : Nat) : Nat × Nat × Nat :=
  (List.range' alo (ahi - alo)).foldl
    (fun best i =>
      (List.range' blo (bhi - blo)).foldl
        (fun best j => betterMatch best (i, j, runLen a b ahi bhi i j)) best)
    (alo, blo, 0)

/-- Total size of all matching blocks: difflib's recursive decomposition of
`get_matching_blocks`, summed.  The recursion is driven by fuel so that the
definition is structural (kernel-reducible); each recursive window is
strictly narrower in `a` (difflib guarantees `alo ≤ i`, `i + k ≤ ahi`,
`1 ≤ k` on the recursive branch), so fuel `a.length + 1` never runs out
for the top-level call.  The guards add the bounds `i < ahi` and
`alo < i + k`, which always hold for `findLongestMatch` results. -/
def matchTotal (a b : List Char) : Nat → Nat → Nat → Nat → Nat → Nat
  | 0, _, _, _, _ => 0
  | fuel + 1, alo, ahi, blo, bhi =>
    match findLongestMatch a b alo ahi blo bhi with
    | (i, j, k) =>
      if k = 0 then 0
      else
        k + (if alo < i ∧ i < ahi ∧ blo < j then matchTotal a b fuel alo i blo j else 0)
          + (if alo < i + k ∧ i + k < ahi ∧ j + k < bhi then
               matchTotal a b fuel (i + k) ahi (j + k) bhi else 0)

/-- Sum of matched characters over all matching blocks of `a` and `b`. -/
def sequenceMatches (a b : List Char) : Nat :=
  matchTotal a b (a.length + 1) 0 a.length 0 b.length

/-- `SequenceMatcher.ratio()`: twice the number of matching characters over
the combined length, as an exact rational (`1` for two empty strings). -/
def ratioOf (a b : List Char) : ℚ :=
  if a.length + b.length = 0 then 1
  else 2 * (sequenceMatches a b : ℚ) / ((a.length : ℚ) + (b.length : ℚ))

/-- Python `str.lower()` (ASCII case fold). -/
def pyLower (s : List Char) : List Char := s.map Char.toLower

/-- `similarity(a, b)` — main.py lines 147-148. -/
def similarityQ (a b : List Char) : ℚ := ratioOf (pyLower a) (pyLower b)

/-! ## Deduplication: `dedupe_items` (main.py lines 151-161) -/

/-- A line item after numeric coercion, with Python floats modelled by `ℚ`. -/
structure BillItem where
  item_name : List Char
  item_amount : ℚ
  item_rate : ℚ
  item_quantity : ℚ
deriving DecidableEq

/-- The duplicate test of the inner loop (line 156): name similarity at or
above `threshold` and amount difference within `tol`. -/
def dupOf (threshold tol : ℚ) (it u : BillItem) : Bool :=
  decide (threshold ≤ similarityQ it.item_name u.item_name) &&
    decide (|it.item_amount - u.item_amount| ≤ tol)

/-- The `for it in items` loop of `dedupe_items`, carrying the growing
`unique` list; the inner `for u in unique ... break` is `List.any`. -/
def dedupeLoop (threshold tol : ℚ) (unique : List BillItem) :
    List BillItem → List BillItem
  | [] => unique
  | it :: rest =>
    if unique.any (dupOf threshold tol it) then dedupeLoop threshold tol unique rest
    else dedupeLoop threshold tol (unique ++ [it]) rest

/-- `dedupe_items(items, threshold=0.92, tol=1.0)` — main.py lines 151-161. -/
def dedupe_items (items : List BillItem) (threshold : ℚ := 92 / 100) (tol : ℚ := 1) :
    List BillItem :=
  dedupeLoop threshold tol [] items

/-! ## Spec-side deduplication (§4.4 of the spec, claim C1) -/

/-- The spec's duplicate criterion: some already-accepted item has
case-insensitive name-similarity ratio `≥ threshold` and absolute amount
difference `≤ tol`. -/
def specSimilarDup (threshold tol : ℚ) (it : BillItem) (acc : List BillItem) : Prop :=
  ∃ u ∈ acc, threshold ≤ similarityQ it.item_name u.item_name ∧
    |it.item_amount - u.item_amount| ≤ tol

instance (threshold tol : ℚ) (it : BillItem) (acc : List BillItem) :
    Decidable (specSimilarDup threshold tol it acc) :=
  inferInstanceAs (Decidable (∃ u ∈ acc, _ ∧ _))

/-- The spec's algorithm (§4.4), literally: process items in input order
with a growing accepted list; discard a candidate iff `specSimilarDup`,
otherwise append it (first occurrence wins). -/
def dedupeSpecGo (threshold tol : ℚ) (acc : List BillItem) :
    List BillItem → List BillItem
  | [] => acc
  | it :: rest =>
    if specSimilarDup threshold tol it acc then dedupeSpecGo threshold tol acc rest
    else dedupeSpecGo threshold tol (acc ++ [it]) rest

/-- The spec's dedupe with default parameters 0.92 / 1.0. -/
def dedupeSpec (items : List BillItem) : List BillItem :=
  dedupeSpecGo (92 / 100) 1 [] items

theorem any_dupOf_iff (threshold tol : ℚ) (it : BillItem) (l : List BillItem) :
    l.any (dupOf threshold tol it) = true ↔ specSimilarDup threshold tol it l := by
  simp [List.any_eq_true, dupOf, specSimilarDup, Bool.and_eq_true, decide_eq_true_eq]

theorem dedupeLoop_eq_specGo (threshold tol : ℚ) :
    ∀ (xs acc : List BillItem),
      dedupeLoop threshold tol acc xs = dedupeSpecGo threshold tol acc xs := by
  intro xs
  induction xs with
  | nil => intro acc; rfl
  | cons it rest ih =>
    intro acc
    by_cases h : specSimilarDup threshold tol it acc
    · rw [dedupeLoop, dedupeSpecGo, if_pos ((any_dupOf_iff threshold tol it acc).mpr h),
        if_pos h, ih]
    · rw [dedupeLoop, dedupeSpecGo,
        if_neg (fun hh => h ((any_dupOf_iff threshold tol it acc).mp hh)),
        if_neg h, ih]

theorem dedupeLoop_sublist (threshold tol : ℚ) :
    ∀ (xs acc : List BillItem), (dedupeLoop threshold tol acc xs).Sublist (acc ++ xs) := by
  intro xs
  induction xs with
  | nil =>
    intro acc
    rw [dedupeLoop, List.append_nil]
  | cons it rest ih =>
    intro acc
    rw [dedupeLoop]
    by_cases h : acc.any (dupOf threshold tol it) = true
    · rw [if_pos h]
      exact (ih acc).trans
        (List.Sublist.append_left (List.sublist_cons_self it rest) acc)
    · rw [if_neg h]
      have := ih (acc ++ [it])
      simpa using this

/-! ## Idempotence machinery for `dedupe_items` (claim C6) -/

/-- Lists in which every element was accepted against exactly the elements
before it: the invariant of `dedupe_items`' `unique` list. -/
inductive DedupGood (threshold tol : ℚ) : List BillItem → Prop
  | nil : DedupGood threshold tol []
  | snoc (l : List BillItem) (it : BillItem) :
      DedupGood threshold tol l → l.any (dupOf threshold tol it) = false →
      DedupGood threshold tol (l ++ [it])

theorem dedupeLoop_append (threshold tol : ℚ) :
    ∀ (xs ys acc : List BillItem),
      dedupeLoop threshold tol acc (xs ++ ys) =
        dedupeLoop threshold tol (dedupeLoop threshold tol acc xs) ys := by
  intro xs
  induction xs with
  | nil => intro ys acc; rfl
  | cons it rest ih =>
    intro ys acc
    rw [List.cons_append, dedupeLoop, dedupeLoop]
    by_cases h : acc.any (dupOf threshold tol it) = true
    · rw [if_pos h, if_pos h, ih]
    · rw [if_neg h, if_neg h, ih]

theorem dedupeLoop_good (threshold tol : ℚ) :
    ∀ (xs acc : List BillItem), DedupGood threshold tol acc →
      DedupGood threshold tol (dedupeLoop threshold tol acc xs) := by
  intro xs
  induction xs with
  | nil => intro acc h; exact h
  | cons it rest ih =>
    intro acc hacc
    rw [dedupeLoop]
    by_cases h : acc.any (dupOf threshold tol it) = true
    · rw [if_pos h]; exact ih acc hacc
    · rw [if_neg h]
      exact ih (acc ++ [it]) (DedupGood.snoc acc it hacc (Bool.eq_false_iff.mpr h))

theorem dedupeLoop_fixed (threshold tol : ℚ) (l : List BillItem)
    (h : DedupGood threshold tol l) : dedupeLoop threshold tol [] l = l := by
  induction h with
  | nil => rfl
  | snoc l' it hgood hany ih =>
    rw [dedupeLoop_append, ih, dedupeLoop, if_neg (by rw [hany]; exact Bool.false_ne_true),
      dedupeLoop]

/-- C6: `dedupe_items` with default threshold and tolerance is idempotent:
applying it to its own output returns the output unchanged. -/
theorem C6_dedupe_idempotent (items : List BillItem) :
    dedupe_items (dedupe_items items) = dedupe_items items :=
  dedupeLoop_fixed (92 / 100) 1 (dedupeLoop (92 / 100) 1 [] items)
    (dedupeLoop_good (92 / 100) 1 items [] DedupGood.nil)

/-! ## JSON model (for `find_json`, main.py lines 97-105)

`json.loads` / `json.dumps` are modelled over an exact-arithmetic JSON
value type.  Numbers carry their decimal shape `m · 10⁻ᵉ` (`e = 0` is a
Python `int`, `e > 0` a float with `e` fraction digits; exponent notation
is folded into this shape during parsing; IEEE specials `NaN`/`Infinity`
are outside the exact model).  Objects are assoc lists in insertion order
with Python's duplicate-key semantics (last value wins, first position).
Strings are serialized with the escapes `json.dumps` emits for `"`, `\\`
and control characters.  The types are a mutual inductive so that every
function on them is structural and kernel-reducible. -/

mutual
inductive JsonVal : Type
  | null : JsonVal
  | bool (b : Bool) : JsonVal
  | num (m : Int) (e : Nat) : JsonVal
  | str (s : List Char) : JsonVal
  | arr (xs : JsonArr) : JsonVal
  | obj (fs : JsonObj) : JsonVal
inductive JsonArr : Type
  | nil : JsonArr
  | cons (hd : JsonVal) (tl : JsonArr) : JsonArr
inductive JsonObj : Type
  | nil : JsonObj
  | cons (k : List Char) (v : JsonVal) (tl : JsonObj) : JsonObj
end

def JsonArr.toList : JsonArr → List JsonVal
  | .nil => []
  | .cons x xs => x :: xs.toList

/-- Dictionary lookup `d[k]` / `d.get(k)`. -/
def jsonGet : JsonObj → List Char → Option JsonVal
  | .nil, _ => none
  | .cons k v rest, key => if k = key then some v else jsonGet rest key

def objKeys : JsonObj → List (List Char)
  | .nil => []
  | .cons k _ rest => k :: objKeys rest

/-- `d[k] = v` on a Python dict: replace in place if the key exists,
append otherwise. -/
def objInsert (key : List Char) (v : JsonVal) : JsonObj → JsonObj
  | .nil => .cons key v .nil
  | .cons k' v' rest =>
    if k' = key then .cons k' v rest else .cons k' v' (objInsert key v rest)

def objAppend : JsonObj → JsonObj → JsonObj
  | .nil, gs => gs
  | .cons k v rest, gs => .cons k v (objAppend rest gs)

/-- Build a dict from parsed key/value pairs in order (duplicate keys:
last value wins at the first key's position). -/
def buildObjAux : JsonObj → JsonObj → JsonObj
  | acc, .nil => acc
  | acc, .cons k v rest => buildObjAux (objInsert k v acc) rest

def buildObj (ps : JsonObj) : JsonObj := buildObjAux .nil ps

/-! ### Lexical helpers -/

def isJsonWs (c : Char) : Bool := c = ' ' || c = '\t' || c = '\n' || c = '\r'

def skipWs : List Char → List Char
  | [] => []
  | c :: r => if isJsonWs c then skipWs r else c :: r

def digitVal (c : Char) : Nat := c.toNat - 48

def digitChar (d : Nat) : Char := Char.ofNat (48 + d)

/-- Maximal leading run of decimal digits. -/
def takeDigits : List Char → List Char × List Char
  | [] => ([], [])
  | c :: r =>
    if c.isDigit then
      match takeDigits r with
      | (ds, rest) => (c :: ds, rest)
    else ([], c :: r)

/-- Numeric value of a digit string (leading zeros allowed). -/
def digitsVal (ds : List Char) : Nat := ds.foldl (fun acc c => acc * 10 + digitVal c) 0

def hexVal (c : Char) : Option Nat :=
  if c.isDigit then some (digitVal c)
  else if 'a' ≤ c && c ≤ 'f' then some (c.toNat - 87)
  else if 'A' ≤ c && c ≤ 'F' then some (c.toNat - 55)
  else none

/-! ### String literal parsing (body after the opening quote) -/

/-- Prepend a character to the string being accumulated. -/
def strCons (c : Char) : Option (List Char × List Char) → Option (List Char × List Char)
  | some (cs, t) => some (c :: cs, t)
  | none => none

/-- Parse a JSON string body up to and including the closing quote.  The
fuel counts logical units (one character or escape per step), so any fuel
of at least `input length + 1` suffices.  `\uXXXX` is accepted for valid
(non-surrogate) code points. -/
def parseStrF : Nat → List Char → Option (List Char × List Char)
  | 0, _ => none
  | fuel + 1, s =>
    match s with
    | [] => none
    | c :: r =>
      if c = '"' then some ([], r)
      else if c = '\\' then
        match r with
        | [] => none
        | e :: r2 =>
          if e = '"' then strCons '"' (parseStrF fuel r2)
          else if e = '\\' then strCons '\\' (parseStrF fuel r2)
          else if e = '/' then strCons '/' (parseStrF fuel r2)
          else if e = 'b' then strCons (Char.ofNat 8) (parseStrF fuel r2)
          else if e = 'f' then strCons (Char.ofNat 12) (parseStrF fuel r2)
          else if e = 'n' then strCons '\n' (parseStrF fuel r2)
          else if e = 'r' then strCons '\r' (parseStrF fuel r2)
          else if e = 't' then strCons '\t' (parseStrF fuel r2)
          else if e = 'u' then
            match r2 with
            | h1 :: h2 :: h3 :: h4 :: r3 =>
              match hexVal h1, hexVal h2, hexVal h3, hexVal h4 with
              | some d1, some d2, some d3, some d4 =>
                let code := ((d1 * 16 + d2) * 16 + d3) * 16 + d4
                if Nat.isValidChar code then strCons (Char.ofNat code) (parseStrF fuel r3)
                else none
              | _, _, _, _ => none
            | _ => none
          else none
      else if c.toNat < 32 then none
      else strCons c (parseStrF fuel r)

/-- Parse a string body (after the opening `"`). -/
def parseStr (s : List Char) : Option (List Char × List Char) :=
  parseStrF (s.length + 1) s

/-! ### Number parsing (the `json` module's number regex, with the
exponent folded into the decimal shape) -/

/-- `(-?(?:0|[1-9]\d*))` — the integer digits. -/
def parseIntDigits : List Char → Option (List Char × List Char)
  | [] => none
  | c :: r =>
    if c = '0' then some (['0'], r)
    else if c.isDigit then
      match takeDigits r with
      | (ds, rest) => some (c :: ds, rest)
    else none

/-- `(\.\d+)?` — fraction digits, empty when absent. -/
def parseFrac : List Char → Option (List Char × List Char)
  | [] => some ([], [])
  | c :: r =>
    if c = '.' then
      match takeDigits r with
      | ([], _) => none
      | (ds, rest) => some (ds, rest)
    else some ([], c :: r)

def parseExpSign : List Char → Bool × List Char
  | [] => (false, [])
  | c :: r => if c = '-' then (true, r) else if c = '+' then (false, r) else (false, c :: r)

/-- `([eE][-+]?\d+)?` — the exponent, `0` when absent. -/
def parseExp : List Char → Option (Int × List Char)
  | [] => some (0, [])
  | c :: r =>
    if c = 'e' || c = 'E' then
      match parseExpSign r with
      | (negE, r2) =>
        match takeDigits r2 with
        | ([], _) => none
        | (ds, rest) =>
          some (if negE then -(digitsVal ds : Int) else (digitsVal ds : Int), rest)
    else some (0, c :: r)

/-- The digits/fraction/exponent pipeline after the optional minus sign. -/
def parseNumBody (neg : Bool) (s : List Char) : Option (JsonVal × List Char) :=
  match parseIntDigits s with
  | none => none
  | some (ids, s2) =>
    match parseFrac s2 with
    | none => none
    | some (fds, s3) =>
      match parseExp s3 with
      | none => none
      | some (ex, s4) =>
        let base : Int := (digitsVal (ids ++ fds) : Int)
        let m : Int := if neg then -base else base
        let k : Int := ex - (fds.length : Int)
        if 0 ≤ k then some (.num (m * 10 ^ k.toNat) 0, s4)
        else some (.num m (-k).toNat, s4)

/-- Parse a JSON number into its decimal shape `m · 10⁻ᵉ`. -/
def parseNum (s : List Char) : Option (JsonVal × List Char) :=
  match s with
  | [] => none
  | c :: r => if c = '-' then parseNumBody true r else parseNumBody false (c :: r)

/-! ### The JSON value parser -/

mutual
/-- Parse one JSON value at the head of the input (leading whitespace
already consumed by the caller).  The fuel bounds the nesting of
`value / array-tail / object-tail` steps; `input length + 1` always
suffices since every step consumes at least one character. -/
def parseVal : Nat → List Char → Option (JsonVal × List Char)
  | 0, _ => none
  | fuel + 1, s =>
    match s with
    | [] => none
    | c :: r =>
      if c = 'n' then
        match r with
        | 'u' :: 'l' :: 'l' :: r' => some (.null, r')
        | _ => none
      else if c = 't' then
        match r with
        | 'r' :: 'u' :: 'e' :: r' => some (.bool true, r')
        | _ => none
      else if c = 'f' then
        match r with
        | 'a' :: 'l' :: 's' :: 'e' :: r' => some (.bool false, r')
        | _ => none
      else if c = '"' then
        match parseStr r with
        | some (cs, t) => some (.str cs, t)
        | none => none
      else if c = '[' then
        match skipWs r with
        | [] => none
        | c2 :: r2 =>
          if c2 = ']' then some (.arr .nil, r2)
          else
            match parseElems fuel (c2 :: r2) with
            | some (xs, t) => some (.arr xs, t)
            | none => none
      else if c = '{' then
        match skipWs r with
        | [] => none
        | c2 :: r2 =>
          if c2 = '}' then some (.obj .nil, r2)
          else
            match parseMembers fuel (c2 :: r2) with
            | some (ps, t) => some (.obj (buildObj ps), t)
            | none => none
      else parseNum (c :: r)

/-- Parse the elements of a non-empty array (first element at the head),
up to and including the closing `]`. -/
def parseElems : Nat → List Char → Option (JsonArr × List Char)
  | 0, _ => none
  | fuel + 1, s =>
    match parseVal fuel s with
    | none => none
    | some (v, r) =>
      match skipWs r with
      | ',' :: r2 =>
        (match parseElems fuel (skipWs r2) with
         | some (xs, t) => some (.cons v xs, t)
         | none => none)
      | ']' :: r2 => some (.cons v .nil, r2)
      | _ => none

/-- Parse the members of a non-empty object (first key at the head), up to
and including the closing `}`; returns the raw pair list in source order. -/
def parseMembers : Nat → List Char → Option (JsonObj × List Char)
  | 0, _ => none
  | fuel + 1, s =>
    match s with
    | '"' :: r =>
      (match parseStr r with
       | none => none
       | some (key, r1) =>
         match skipWs r1 with
         | ':' :: r2 =>
           (match parseVal fuel (skipWs r2) with
            | none => none
            | some (v, r3) =>
              match skipWs r3 with
              | ',' :: r4 =>
                (match parseMembers fuel (skipWs r4) with
                 | some (ps, t) => some (.cons key v ps, t)
                 | none => none)
              | '}' :: r4 => some (.cons key v .nil, r4)
              | _ => none)
         | _ => none)
    | _ => none
end

/-- `json.loads`: parse a complete document, allowing surrounding
whitespace and rejecting trailing data. -/
def json_loads (s : List Char) : Option JsonVal :=
  match parseVal (s.length + 1) (skipWs s) with
  | some (v, r) => if skipWs r = [] then some v else none
  | none => none

/-! ### The JSON serializer (`json.dumps` with default separators) -/

def hexDigitChar (n : Nat) : Char :=
  if n < 10 then Char.ofNat (48 + n) else Char.ofNat (87 + n)

/-- The escaping `json.dumps` applies inside string literals (quote,
backslash, and control characters; other characters verbatim). -/
def escapeChar (c : Char) : List Char :=
  if c = '"' then ['\\', '"']
  else if c = '\\' then ['\\', '\\']
  else if c = Char.ofNat 8 then ['\\', 'b']
  else if c = '\t' then ['\\', 't']
  else if c = '\n' then ['\\', 'n']
  else if c = Char.ofNat 12 then ['\\', 'f']
  else if c = '\r' then ['\\', 'r']
  else if c.toNat < 32 then
    '\\' :: 'u' :: '0' :: '0' :: hexDigitChar (c.toNat / 16) ::
      hexDigitChar (c.toNat % 16) :: []
  else [c]

/-- Decimal digit characters of a natural number (`['0']` for zero). -/
def natDigitChars (n : Nat) : List Char :=
  if n = 0 then ['0'] else ((Nat.digits 10 n).map digitChar).reverse

/-- Serialize the decimal shape `m · 10⁻ᵉ`: the digits of `m` with a
decimal point before the last `e` digits (zero-padded as needed). -/
def renderNum (m : Int) (e : Nat) : List Char :=
  let sign : List Char := if m < 0 then ['-'] else []
  let ds := natDigitChars m.natAbs
  if e = 0 then sign ++ ds
  else
    let padded := List.replicate (e + 1 - ds.length) '0' ++ ds
    sign ++ (padded.take (padded.length - e) ++ '.' :: padded.drop (padded.length - e))

def renderStr (s : List Char) : List Char :=
  '"' :: (s.flatMap escapeChar ++ ['"'])

mutual
/-- `json.dumps` with the default separators `', '` and `': '`. -/
def renderVal : JsonVal → List Char
  | .null => 'n' :: ['u', 'l', 'l']
  | .bool true => 't' :: ['r', 'u', 'e']
  | .bool false => 'f' :: ['a', 'l', 's', 'e']
  | .num m e => renderNum m e
  | .str s => renderStr s
  | .arr .nil => ['[', ']']
  | .arr (.cons x xs) => '[' :: (renderVal x ++ renderElems xs) ++ [']']
  | .obj .nil => ['{', '}']
  | .obj (.cons k v fs) =>
    '{' :: (renderStr k ++ ':' :: ' ' :: renderVal v ++ renderMembers fs) ++ ['}']

def renderElems : JsonArr → List Char
  | .nil => []
  | .cons x xs => ',' :: ' ' :: (renderVal x ++ renderElems xs)

def renderMembers : JsonObj → List Char
  | .nil => []
  | .cons k v fs => ',' :: ' ' :: (renderStr k ++ ':' :: ' ' :: renderVal v ++ renderMembers fs)
end

/-! ### `find_json` (main.py lines 97-105) -/

inductive FindJsonError : Type
  | noJson : FindJsonError
  | malformedJson : FindJsonError
deriving DecidableEq

/-- Index of the last occurrence of `c` (Python `str.rfind`, `none` for
`-1`). -/
def lastIdxOf (c : Char) (s : List Char) : Option Nat :=
  (List.findIdx? (fun x => x = c) s.reverse).map (fun i => s.length - 1 - i)

/-- `find_json(text)`: take the span from the first `{` to the last `}`
and `json.loads` it; `noJson` when either brace is missing, and
`malformedJson` when the span does not parse. -/
def find_json (text : List Char) : Except FindJsonError JsonVal :=
  match List.findIdx? (fun x => x = '{') text, lastIdxOf '}' text with
  | some start, some stop =>
    (match json_loads ((text.drop start).take (stop + 1 - start)) with
     | some v => .ok v
     | none => .error .malformedJson)
  | _, _ => .error .noJson

/-! ## Round-trip correctness of the JSON model

`json_loads (renderVal v) = some v` for every parser-producible value —
the backbone of claim C7. -/

theorem char_eq_of_toNat_eq {c d : Char} (h : c.toNat = d.toNat) : c = d := by
  apply Char.eq_of_val_eq
  apply UInt32.eq_of_toBitVec_eq
  apply BitVec.eq_of_toNat_eq
  simpa [Char.toNat, UInt32.toNat] using h

theorem char_ne_of_toNat_ne {c d : Char} (h : c.toNat ≠ d.toNat) : c ≠ d :=
  fun he => h (congrArg Char.toNat he)

theorem char_toNat_ofNat {n : Nat} (h : Nat.isValidChar n) : (Char.ofNat n).toNat = n := by
  simp [Char.ofNat, h, Char.toNat, Char.ofNatAux, UInt32.toNat, UInt32.ofNatCore,
    BitVec.toNat_ofNatLt]

theorem isDigit_toNat {c : Char} (h : c.isDigit = true) :
    48 ≤ c.toNat ∧ c.toNat ≤ 57 := by
  simpa [Char.isDigit, decide_eq_true_eq, Bool.and_eq_true] using h

theorem skipWs_cons {c : Char} (r : List Char) (h : isJsonWs c = false) :
    skipWs (c :: r) = c :: r := by
  simp [skipWs, h]

theorem skipWs_space (r : List Char) : skipWs (' ' :: r) = skipWs r := by
  simp [skipWs, isJsonWs]

/-- Heads that cannot begin a digit run. -/
def HeadNotDigit : List Char → Prop
  | [] => True
  | c :: _ => c.isDigit = false

theorem takeDigits_all (ds : List Char) :
    ∀ (rest : List Char), (∀ c ∈ ds, c.isDigit = true) → HeadNotDigit rest →
      takeDigits (ds ++ rest) = (ds, rest) := by
  induction ds with
  | nil =>
    intro rest _ hrest
    cases rest with
    | nil => rfl
    | cons c r =>
      have : c.isDigit = false := hrest
      simp [takeDigits, this]
  | cons d ds ih =>
    intro rest hds hrest
    have hd : d.isDigit = true := hds d (List.mem_cons_self d ds)
    have := ih rest (fun c hc => hds c (List.mem_cons_of_mem d hc)) hrest
    simp [takeDigits, hd, this]

theorem digitVal_digitChar {d : Nat} (h : d < 10) : digitVal (digitChar d) = d := by
  interval_cases d <;> decide

theorem isDigit_digitChar {d : Nat} (h : d < 10) : (digitChar d).isDigit = true := by
  interval_cases d <;> decide

theorem digitChar_ne_zero {d : Nat} (h : d < 10) (h0 : d ≠ 0) : digitChar d ≠ '0' := by
  interval_cases d <;> simp_all <;> decide

theorem digitsVal_from (ds : List Char) :
    ∀ a : Nat, ds.foldl (fun acc c => acc * 10 + digitVal c) a =
      a * 10 ^ ds.length + digitsVal ds := by
  induction ds with
  | nil => intro a; simp [digitsVal]
  | cons c ds ih =>
    intro a
    have h1 : digitsVal (c :: ds) = digitVal c * 10 ^ ds.length + digitsVal ds := by
      simpa [digitsVal] using ih (digitVal c)
    simp only [List.foldl_cons, ih (a * 10 + digitVal c), h1, List.length_cons]
    ring

theorem digitsVal_append (ds es : List Char) :
    digitsVal (ds ++ es) = digitsVal ds * 10 ^ es.length + digitsVal es := by
  unfold digitsVal
  rw [List.foldl_append]
  exact digitsVal_from es _

theorem digitsVal_replicate_zero (k : Nat) : digitsVal (List.replicate k '0') = 0 := by
  induction k with
  | zero => rfl
  | succ k ih =>
    have : digitVal '0' = 0 := by decide
    simpa [digitsVal, List.replicate_succ, this] using ih

theorem digitsVal_map_rev (ds : List Nat) (h : ∀ d ∈ ds, d < 10) :
    digitsVal ((ds.map digitChar).reverse) = Nat.ofDigits 10 ds := by
  induction ds with
  | nil => rfl
  | cons d ds ih =>
    have hd : d < 10 := h d (List.mem_cons_self d ds)
    have hds : ∀ x ∈ ds, x < 10 := fun x hx => h x (List.mem_cons_of_mem d hx)
    have h1 : digitsVal [digitChar d] = d := by
      simp [digitsVal, digitVal_digitChar hd]
    rw [List.map_cons, List.reverse_cons, digitsVal_append, ih hds, h1,
      Nat.ofDigits_cons]
    simp
    ring

theorem natDigitChars_all_digits (n : Nat) :
    ∀ c ∈ natDigitChars n, c.isDigit = true := by
  unfold natDigitChars
  split
  · intro c hc
    rw [List.mem_singleton] at hc
    subst hc
    decide
  · intro c hc
    rw [List.mem_reverse, List.mem_map] at hc
    obtain ⟨d, hd, rfl⟩ := hc
    exact isDigit_digitChar (Nat.digits_lt_base (by norm_num) hd)

theorem natDigitChars_ne_nil (n : Nat) : natDigitChars n ≠ [] := by
  unfold natDigitChars
  split
  · simp
  · rename_i h
    simp [Nat.digits_ne_nil_iff_ne_zero, h]

theorem digitsVal_natDigitChars (n : Nat) : digitsVal (natDigitChars n) = n := by
  unfold natDigitChars
  split
  · rename_i h
    subst h
    decide
  · rw [digitsVal_map_rev _ (fun d hd => Nat.digits_lt_base (by norm_num) hd),
      Nat.ofDigits_digits]

theorem natDigitChars_head_ne_zero {n : Nat} (hn : n ≠ 0) :
    ∀ {c cs}, natDigitChars n = c :: cs → c ≠ '0' := by
  intro c cs hc
  unfold natDigitChars at hc
  rw [if_neg hn, ← List.map_reverse] at hc
  rw [List.map_eq_cons_iff] at hc
  obtain ⟨d, ds, hrev, hcd, _⟩ := hc
  have hlast : (Nat.digits 10 n).getLast? = some d := by
    rw [← List.head?_reverse, hrev]
    rfl
  have hne : Nat.digits 10 n ≠ [] := by
    simpa [Nat.digits_ne_nil_iff_ne_zero] using hn
  rw [List.getLast?_eq_getLast _ hne] at hlast
  have hd0 : d ≠ 0 := by
    have := Nat.getLast_digit_ne_zero 10 hn
    rw [Option.some.inj hlast] at this
    exact fun h => this (h ▸ rfl)
  have hdlt : d < 10 := by
    have hdm : d ∈ Nat.digits 10 n := by
      rw [← Option.some.inj hlast]
      exact List.getLast_mem hne
    exact Nat.digits_lt_base (by norm_num) hdm
  subst hcd
  exact digitChar_ne_zero hdlt hd0

/-- Heads that cannot extend a rendered number token. -/
def NumDelim : List Char → Prop
  | [] => True
  | c :: _ => c.isDigit = false ∧ c ≠ '.' ∧ c ≠ 'e' ∧ c ≠ 'E'

theorem NumDelim.headNotDigit {rest : List Char} (h : NumDelim rest) :
    HeadNotDigit rest := by
  cases rest with
  | nil => trivial
  | cons c r => exact h.1

theorem parseIntDigits_exact (ids rest : List Char) (hne : ids ≠ [])
    (hdig : ∀ c ∈ ids, c.isDigit = true)
    (hzero : ∀ c cs, ids = c :: cs → c = '0' → cs = [])
    (hrest : HeadNotDigit rest) :
    parseIntDigits (ids ++ rest) = some (ids, rest) := by
  cases ids with
  | nil => exact absurd rfl hne
  | cons c cs =>
    by_cases hc : c = '0'
    · have hcs : cs = [] := hzero c cs rfl hc
      subst hcs
      subst hc
      simp [parseIntDigits]
    · have hcd : c.isDigit = true := hdig c (List.mem_cons_self c cs)
      have htd : takeDigits (cs ++ rest) = (cs, rest) :=
        takeDigits_all cs rest (fun x hx => hdig x (List.mem_cons_of_mem c hx)) hrest
      simp [parseIntDigits, hc, hcd, htd]

theorem parseFrac_dot (fds rest : List Char) (hne : fds ≠ [])
    (hdig : ∀ c ∈ fds, c.isDigit = true) (hrest : HeadNotDigit rest) :
    parseFrac ('.' :: (fds ++ rest)) = some (fds, rest) := by
  have htd : takeDigits (fds ++ rest) = (fds, rest) := takeDigits_all fds rest hdig hrest
  cases fds with
  | nil => exact absurd rfl hne
  | cons c cs =>
    rw [parseFrac, if_pos rfl, htd]

theorem parseFrac_absent (s : List Char)
    (h : match s with | [] => True | c :: _ => c ≠ '.') :
    parseFrac s = some ([], s) := by
  cases s with
  | nil => rfl
  | cons c r => simp [parseFrac, h]

theorem parseExp_absent (s : List Char)
    (h : match s with | [] => True | c :: _ => c ≠ 'e' ∧ c ≠ 'E') :
    parseExp s = some (0, s) := by
  cases s with
  | nil => rfl
  | cons c r => simp [parseExp, h.1, h.2]

theorem isDigit_ne {c : Char} (h : c.isDigit = true) (x : Char)
    (hx : x.toNat < 48 ∨ 57 < x.toNat) : c ≠ x :=
  char_ne_of_toNat_ne (by have := isDigit_toNat h; omega)

theorem parseNumBody_int (neg : Bool) (ds rest : List Char) (hne : ds ≠ [])
    (hdig : ∀ c ∈ ds, c.isDigit = true)
    (hzero : ∀ c cs, ds = c :: cs → c = '0' → cs = [])
    (hrest : NumDelim rest) :
    parseNumBody neg (ds ++ rest) =
      some (.num (if neg then -(digitsVal ds : Int) else (digitsVal ds : Int)) 0, rest) := by
  have h1 := parseIntDigits_exact ds rest hne hdig hzero hrest.headNotDigit
  have h2 : parseFrac rest = some ([], rest) := by
    apply parseFrac_absent
    cases rest with
    | nil => trivial
    | cons c r => exact hrest.2.1
  have h3 : parseExp rest = some (0, rest) := by
    apply parseExp_absent
    cases rest with
    | nil => trivial
    | cons c r => exact ⟨hrest.2.2.1, hrest.2.2.2⟩
  simp only [parseNumBody, h1, h2, h3]
  simp

theorem parseNumBody_frac (neg : Bool) (ids fds rest : List Char)
    (hine : ids ≠ []) (hidig : ∀ c ∈ ids, c.isDigit = true)
    (hzero : ∀ c cs, ids = c :: cs → c = '0' → cs = [])
    (hfne : fds ≠ []) (hfdig : ∀ c ∈ fds, c.isDigit = true)
    (hrest : NumDelim rest) :
    parseNumBody neg (ids ++ '.' :: (fds ++ rest)) =
      some (.num (if neg then -(digitsVal (ids ++ fds) : Int)
                  else (digitsVal (ids ++ fds) : Int)) fds.length, rest) := by
  have hnd : HeadNotDigit ('.' :: (fds ++ rest)) := by simp [HeadNotDigit]
  have h1 := parseIntDigits_exact ids ('.' :: (fds ++ rest)) hine hidig hzero hnd
  have h2 := parseFrac_dot fds rest hfne hfdig hrest.headNotDigit
  have h3 : parseExp rest = some (0, rest) := by
    apply parseExp_absent
    cases rest with
    | nil => trivial
    | cons c r => exact ⟨hrest.2.2.1, hrest.2.2.2⟩
  simp only [parseNumBody, h1, h2, h3]
  have hlen : ¬ (0 : Int) ≤ 0 - (fds.length : Int) := by
    have : fds.length ≠ 0 := fun hh => hfne (List.length_eq_zero.mp hh)
    omega
  rw [if_neg hlen]
  have htn : (-((0 : Int) - (fds.length : Int))).toNat = fds.length := by omega
  rw [htn]

theorem renderNum_zero (m : Int) :
    renderNum m 0 = (if m < 0 then ['-'] else []) ++ natDigitChars m.natAbs := by
  simp [renderNum]

/-- The zero-padded digit string of `m.natAbs` used when `e ≠ 0`. -/
def numPadded (m : Int) (e : Nat) : List Char :=
  List.replicate (e + 1 - (natDigitChars m.natAbs).length) '0' ++ natDigitChars m.natAbs

theorem renderNum_pos (m : Int) (e : Nat) (he : e ≠ 0) :
    renderNum m e = (if m < 0 then ['-'] else []) ++
      ((numPadded m e).take ((numPadded m e).length - e) ++
        '.' :: (numPadded m e).drop ((numPadded m e).length - e)) := by
  simp [renderNum, numPadded, he]

theorem numPadded_digits (m : Int) (e : Nat) :
    ∀ c ∈ numPadded m e, c.isDigit = true := by
  intro c hc
  rw [numPadded, List.mem_append] at hc
  rcases hc with hc | hc
  · rw [List.eq_of_mem_replicate hc]; decide
  · exact natDigitChars_all_digits _ c hc

theorem numPadded_len (m : Int) (e : Nat) : e + 1 ≤ (numPadded m e).length := by
  have h1 : (numPadded m e).length =
      (e + 1 - (natDigitChars m.natAbs).length) + (natDigitChars m.natAbs).length := by
    simp [numPadded]
  omega

theorem digitsVal_numPadded (m : Int) (e : Nat) :
    digitsVal (numPadded m e) = m.natAbs := by
  rw [numPadded, digitsVal_append, digitsVal_replicate_zero, digitsVal_natDigitChars]
  simp

theorem natDigitChars_zero_cases : ∀ {c : Char} {cs : List Char} (n : Nat),
    natDigitChars n = c :: cs → c = '0' → cs = [] := by
  intro c cs n hc h0
  by_cases hn0 : n = 0
  · subst hn0
    have h : (['0'] : List Char) = c :: cs := by simpa [natDigitChars] using hc
    exact (List.cons.inj h).2.symm
  · exact absurd h0 (natDigitChars_head_ne_zero hn0 hc)

theorem parseNum_cons_eq (c : Char) (r : List Char) :
    parseNum (c :: r) =
      if c = '-' then parseNumBody true r else parseNumBody false (c :: r) := rfl

theorem parseNum_renderNum (m : Int) (e : Nat) (rest : List Char) (hrest : NumDelim rest) :
    parseNum (renderNum m e ++ rest) = some (.num m e, rest) := by
  have hzero : ∀ c cs, natDigitChars m.natAbs = c :: cs → c = '0' → cs = [] :=
    fun c cs hc h0 => natDigitChars_zero_cases _ hc h0
  by_cases he : e = 0
  · subst he
    rw [renderNum_zero]
    by_cases hm : m < 0
    · rw [if_pos hm]
      have hsplit : (['-'] ++ natDigitChars m.natAbs) ++ rest =
          '-' :: (natDigitChars m.natAbs ++ rest) := by simp
      rw [hsplit, parseNum_cons_eq, if_pos rfl,
        parseNumBody_int true _ rest (natDigitChars_ne_nil _)
          (natDigitChars_all_digits _) hzero hrest]
      rw [digitsVal_natDigitChars]
      have : -(m.natAbs : Int) = m := by omega
      rw [if_pos rfl, this]
    · rw [if_neg hm, List.nil_append]
      cases hds : natDigitChars m.natAbs with
      | nil => exact absurd hds (natDigitChars_ne_nil _)
      | cons c cs =>
        have hcd : c.isDigit = true :=
          natDigitChars_all_digits _ c (by rw [hds]; exact List.mem_cons_self c cs)
        have hcne : c ≠ '-' := isDigit_ne hcd '-' (by left; decide)
        rw [List.cons_append, parseNum_cons_eq, if_neg hcne, ← List.cons_append, ← hds,
          parseNumBody_int false _ rest (natDigitChars_ne_nil _)
            (natDigitChars_all_digits _) hzero hrest]
        rw [digitsVal_natDigitChars]
        have : (m.natAbs : Int) = m := by omega
        rw [if_neg (by simp), this]
  · rw [renderNum_pos m e he]
    have hL := numPadded_len m e
    have hall := numPadded_digits m e
    set P := numPadded m e with hP
    set t := P.take (P.length - e) with ht
    set d := P.drop (P.length - e) with hd
    have htlen : t.length = P.length - e := by
      rw [ht, List.length_take]
      omega
    have hdlen : d.length = e := by
      rw [hd, List.length_drop]
      omega
    have htne : t ≠ [] := by
      intro hnil
      rw [hnil] at htlen
      simp at htlen
      omega
    have hdne : d ≠ [] := by
      intro hnil
      rw [hnil] at hdlen
      simp at hdlen
      omega
    have htdig : ∀ c ∈ t, c.isDigit = true := fun c hc => hall c (List.take_subset _ _ hc)
    have hddig : ∀ c ∈ d, c.isDigit = true := fun c hc => hall c (List.drop_subset _ _ hc)
    have htd : t ++ d = P := List.take_append_drop _ _
    have htzero : ∀ c cs, t = c :: cs → c = '0' → cs = [] := by
      intro c cs hc h0
      by_cases hpad : (natDigitChars m.natAbs).length ≤ e
      · have hLe : P.length = e + 1 := by
          have : P.length = (e + 1 - (natDigitChars m.natAbs).length) +
              (natDigitChars m.natAbs).length := by
            simp [hP, numPadded]
          omega
        have h1 : t.length = 1 := by omega
        rw [hc] at h1
        simpa using h1
      · have hPd : P = natDigitChars m.natAbs := by
          rw [hP, numPadded, show e + 1 - (natDigitChars m.natAbs).length = 0 by omega]
          simp
        have hn0 : m.natAbs ≠ 0 := by
          intro h0'
          rw [h0'] at hpad
          simp [natDigitChars] at hpad
          omega
        cases hds : natDigitChars m.natAbs with
        | nil => exact absurd hds (natDigitChars_ne_nil _)
        | cons c' cs' =>
          have hc' : c' ≠ '0' := natDigitChars_head_ne_zero hn0 hds
          obtain ⟨k, hk⟩ : ∃ k, P.length - e = k + 1 := ⟨P.length - e - 1, by omega⟩
          have hhead : t = c' :: cs'.take k := by
            rw [ht, hk, hPd, hds, List.take_succ_cons]
          rw [hhead] at hc
          have hcc := (List.cons.inj hc).1
          exact absurd (hcc ▸ h0) hc'
    have hmain : ∀ neg s, s = t ++ '.' :: (d ++ rest) →
        parseNumBody neg s =
          some (.num (if neg then -(m.natAbs : Int) else (m.natAbs : Int)) e, rest) := by
      intro neg s hs
      rw [hs, parseNumBody_frac neg t d rest htne htdig htzero hdne hddig hrest]
      rw [show digitsVal (t ++ d) = m.natAbs by rw [htd, hP, digitsVal_numPadded], hdlen]
    by_cases hm : m < 0
    · rw [if_pos hm]
      have hsplit : (['-'] ++ (t ++ '.' :: d)) ++ rest = '-' :: (t ++ '.' :: (d ++ rest)) := by
        simp
      rw [hsplit, parseNum_cons_eq, if_pos rfl, hmain true _ rfl]
      have : -(m.natAbs : Int) = m := by omega
      rw [if_pos rfl, this]
    · rw [if_neg hm, List.nil_append]
      obtain ⟨c, cs, hts⟩ : ∃ c cs, t = c :: cs := List.exists_cons_of_ne_nil htne
      have hcd : c.isDigit = true := htdig c (by rw [hts]; exact List.mem_cons_self c cs)
      have hcne : c ≠ '-' := isDigit_ne hcd '-' (by left; decide)
      have hsplit : (t ++ '.' :: d) ++ rest = c :: (cs ++ '.' :: (d ++ rest)) := by
        rw [hts]
        simp
      have hback : c :: (cs ++ '.' :: (d ++ rest)) = t ++ '.' :: (d ++ rest) := by
        rw [hts]
        simp
      rw [hsplit, parseNum_cons_eq, if_neg hcne, hback, hmain false _ rfl]
      have : (m.natAbs : Int) = m := by omega
      rw [if_neg (by simp), this]

theorem hexVal_hexDigitChar {n : Nat} (h : n < 16) : hexVal (hexDigitChar n) = some n := by
  interval_cases n <;> decide

theorem parseStrF_render (s : List Char) :
    ∀ (fuel : Nat) (rest : List Char), s.length + 1 ≤ fuel →
      parseStrF fuel (s.flatMap escapeChar ++ ('"' :: rest)) = some (s, rest) := by
  induction s with
  | nil =>
    intro fuel rest hf
    obtain ⟨f, rfl⟩ : ∃ f, fuel = f + 1 := ⟨fuel - 1, by omega⟩
    simp [parseStrF]
  | cons c s ih =>
    intro fuel rest hf
    obtain ⟨f, rfl⟩ : ∃ f, fuel = f + 1 := ⟨fuel - 1, by omega⟩
    have hf' : s.length + 1 ≤ f := by
      simp only [List.length_cons] at hf
      omega
    have ihs := ih f rest hf'
    rw [List.flatMap_cons, List.append_assoc]
    by_cases h1 : c = '"'
    · subst h1
      simp [escapeChar, parseStrF, strCons, ihs]
    · by_cases h2 : c = '\\'
      · subst h2
        simp [escapeChar, parseStrF, strCons, ihs]
      · by_cases h3 : c = Char.ofNat 8
        · subst h3
          simp [escapeChar, parseStrF, strCons, ihs]
        · by_cases h4 : c = '\t'
          · subst h4
            simp [escapeChar, parseStrF, strCons, ihs]
          · by_cases h5 : c = '\n'
            · subst h5
              simp [escapeChar, parseStrF, strCons, ihs]
            · by_cases h6 : c = Char.ofNat 12
              · subst h6
                simp [escapeChar, parseStrF, strCons, ihs]
              · by_cases h7 : c = '\r'
                · subst h7
                  simp [escapeChar, parseStrF, strCons, ihs]
                · by_cases h8 : c.toNat < 32
                  · have hd1 : hexVal (hexDigitChar (c.toNat / 16)) = some (c.toNat / 16) :=
                      hexVal_hexDigitChar (by omega)
                    have hd2 : hexVal (hexDigitChar (c.toNat % 16)) = some (c.toNat % 16) :=
                      hexVal_hexDigitChar (by omega)
                    have hcode : ((0 * 16 + 0) * 16 + c.toNat / 16) * 16 + c.toNat % 16 =
                        c.toNat := by omega
                    have hvalid : Nat.isValidChar
                        (((0 * 16 + 0) * 16 + c.toNat / 16) * 16 + c.toNat % 16) := by
                      rw [hcode]
                      exact Or.inl (by omega)
                    rw [show escapeChar c = ['\\', 'u', '0', '0', hexDigitChar (c.toNat / 16),
                        hexDigitChar (c.toNat % 16)] by
                      simp [escapeChar, h1, h2, h3, h4, h5, h6, h7, h8]]
                    rw [show (['\\', 'u', '0', '0', hexDigitChar (c.toNat / 16),
                        hexDigitChar (c.toNat % 16)] : List Char) ++
                        (s.flatMap escapeChar ++ '"' :: rest) =
                        '\\' :: 'u' :: '0' :: '0' :: hexDigitChar (c.toNat / 16) ::
                        hexDigitChar (c.toNat % 16) :: (s.flatMap escapeChar ++ '"' :: rest)
                      by simp]
                    have hvalid' : Nat.isValidChar c.toNat := hcode ▸ hvalid
                    have hcode' : c.toNat / 16 * 16 + c.toNat % 16 = c.toNat := by omega
                    simp [parseStrF, strCons, ihs, hd1, hd2, hvalid', hcode, hcode',
                      Char.ofNat_toNat, show hexVal '0' = some 0 by decide]
                  · rw [show escapeChar c = [c] by
                      simp [escapeChar, h1, h2, h3, h4, h5, h6, h7, h8]]
                    rw [List.singleton_append]
                    simp [parseStrF, strCons, ihs, h1, h2, h8]

mutual
def jsizeVal : JsonVal → Nat
  | .null => 1
  | .bool _ => 1
  | .num _ _ => 1
  | .str _ => 1
  | .arr xs => jsizeArr xs + 1
  | .obj fs => jsizeObj fs + 1
def jsizeArr : JsonArr → Nat
  | .nil => 1
  | .cons x xs => max (jsizeVal x) (jsizeArr xs) + 1
def jsizeObj : JsonObj → Nat
  | .nil => 1
  | .cons _ v fs => max (jsizeVal v) (jsizeObj fs) + 1
end

mutual
/-- Well-formed values: every object's keys are distinct (as the parser
produces through `buildObj`). -/
def WFVal : JsonVal → Prop
  | .null => True
  | .bool _ => True
  | .num _ _ => True
  | .str _ => True
  | .arr xs => WFArr xs
  | .obj fs => (objKeys fs).Nodup ∧ WFObj fs
def WFArr : JsonArr → Prop
  | .nil => True
  | .cons x xs => WFVal x ∧ WFArr xs
def WFObj : JsonObj → Prop
  | .nil => True
  | .cons _ v fs => WFVal v ∧ WFObj fs
end

theorem jsizeVal_pos (v : JsonVal) : 1 ≤ jsizeVal v := by
  cases v <;> simp [jsizeVal]

theorem jsizeArr_pos (xs : JsonArr) : 1 ≤ jsizeArr xs := by
  cases xs <;> simp [jsizeArr]

theorem jsizeObj_pos (fs : JsonObj) : 1 ≤ jsizeObj fs := by
  cases fs <;> simp [jsizeObj]

/-- Heads that follow a complete rendered value inside a document. -/
def Delim : List Char → Prop
  | [] => True
  | c :: _ => c = ',' ∨ c = ']' ∨ c = '}'

theorem Delim.numDelim {rest : List Char} (h : Delim rest) : NumDelim rest := by
  cases rest with
  | nil => trivial
  | cons c r =>
    rcases h with h | h | h <;> subst h <;> exact ⟨by decide, by decide, by decide, by decide⟩

theorem renderNum_head (m : Int) (e : Nat) :
    ∃ c cs, renderNum m e = c :: cs ∧ (c = '-' ∨ c.isDigit = true) := by
  by_cases hm : m < 0
  · by_cases he : e = 0
    · subst he
      rw [renderNum_zero, if_pos hm]
      exact ⟨'-', _, rfl, Or.inl rfl⟩
    · rw [renderNum_pos m e he, if_pos hm]
      exact ⟨'-', _, rfl, Or.inl rfl⟩
  · by_cases he : e = 0
    · subst he
      rw [renderNum_zero, if_neg hm, List.nil_append]
      obtain ⟨c, cs, hds⟩ : ∃ c cs, natDigitChars m.natAbs = c :: cs :=
        List.exists_cons_of_ne_nil (natDigitChars_ne_nil _)
      exact ⟨c, cs, hds, Or.inr (natDigitChars_all_digits _ c
        (by rw [hds]; exact List.mem_cons_self c cs))⟩
    · rw [renderNum_pos m e he, if_neg hm, List.nil_append]
      have hL := numPadded_len m e
      have htne : (numPadded m e).take ((numPadded m e).length - e) ≠ [] := by
        intro hnil
        have := congrArg List.length hnil
        rw [List.length_take] at this
        simp at this
        omega
      obtain ⟨c, cs, hts⟩ : ∃ c cs,
          (numPadded m e).take ((numPadded m e).length - e) = c :: cs :=
        List.exists_cons_of_ne_nil htne
      refine ⟨c, cs ++ '.' :: (numPadded m e).drop ((numPadded m e).length - e), ?_, ?_⟩
      · rw [hts]
        simp
      · exact Or.inr (numPadded_digits m e c (List.take_subset _ _ (by
          rw [hts]; exact List.mem_cons_self c cs)))

theorem isJsonWs_of_digit {c : Char} (h : c.isDigit = true) : isJsonWs c = false := by
  have hb := isDigit_toNat h
  have h1 : c ≠ ' ' := char_ne_of_toNat_ne (by rw [show (' ').toNat = 32 from rfl]; omega)
  have h2 : c ≠ '\t' := char_ne_of_toNat_ne (by rw [show ('\t').toNat = 9 from rfl]; omega)
  have h3 : c ≠ '\n' := char_ne_of_toNat_ne (by rw [show ('\n').toNat = 10 from rfl]; omega)
  have h4 : c ≠ '\r' := char_ne_of_toNat_ne (by rw [show ('\r').toNat = 13 from rfl]; omega)
  simp [isJsonWs, h1, h2, h3, h4]

theorem renderVal_head (v : JsonVal) :
    ∃ c cs, renderVal v = c :: cs ∧ isJsonWs c = false ∧ c ≠ ']' ∧ c ≠ '}' ∧ c ≠ ',' := by
  cases v with
  | null => exact ⟨'n', _, rfl, by decide, by decide, by decide, by decide⟩
  | bool b =>
    cases b with
    | false => exact ⟨'f', _, rfl, by decide, by decide, by decide, by decide⟩
    | true => exact ⟨'t', _, rfl, by decide, by decide, by decide, by decide⟩
  | num m e =>
    obtain ⟨c, cs, hc, hd⟩ := renderNum_head m e
    rcases hd with hd | hd
    · subst hd
      exact ⟨'-', cs, hc, by decide, by decide, by decide, by decide⟩
    · exact ⟨c, cs, hc, isJsonWs_of_digit hd,
        isDigit_ne hd ']' (by right; decide),
        isDigit_ne hd '}' (by right; decide),
        isDigit_ne hd ',' (by left; decide)⟩
  | str s => exact ⟨'"', _, rfl, by decide, by decide, by decide, by decide⟩
  | arr xs =>
    cases xs with
    | nil => exact ⟨'[', _, rfl, by decide, by decide, by decide, by decide⟩
    | cons x xs => exact ⟨'[', _, rfl, by decide, by decide, by decide, by decide⟩
  | obj fs =>
    cases fs with
    | nil => exact ⟨'{', _, rfl, by decide, by decide, by decide, by decide⟩
    | cons k v fs => exact ⟨'{', _, rfl, by decide, by decide, by decide, by decide⟩

theorem skipWs_render (v : JsonVal) (X : List Char) :
    skipWs (renderVal v ++ X) = renderVal v ++ X := by
  obtain ⟨c, cs, hc, hw, _, _, _⟩ := renderVal_head v
  rw [hc, List.cons_append, skipWs_cons _ hw]

theorem escapeChar_len (c : Char) : 1 ≤ (escapeChar c).length := by
  unfold escapeChar
  split_ifs <;> simp

theorem flatMap_escape_length (s : List Char) :
    s.length ≤ (s.flatMap escapeChar).length := by
  induction s with
  | nil => simp
  | cons c s ih =>
    rw [List.flatMap_cons, List.length_append, List.length_cons]
    have := escapeChar_len c
    omega

theorem objAppend_nil : ∀ (fs : JsonObj), objAppend fs .nil = fs
  | .nil => rfl
  | .cons k v fs => by rw [objAppend, objAppend_nil fs]

theorem objAppend_assoc : ∀ (a b c : JsonObj),
    objAppend (objAppend a b) c = objAppend a (objAppend b c)
  | .nil, _, _ => rfl
  | .cons k v a, b, c => by rw [objAppend, objAppend, objAppend, objAppend_assoc a b c]

theorem objKeys_objAppend : ∀ (a b : JsonObj),
    objKeys (objAppend a b) = objKeys a ++ objKeys b
  | .nil, _ => rfl
  | .cons k v a, b => by
    rw [objAppend, objKeys, objKeys, objKeys_objAppend a b, List.cons_append]

theorem objInsert_not_mem : ∀ (key : List Char) (v : JsonVal) (fs : JsonObj),
    key ∉ objKeys fs → objInsert key v fs = objAppend fs (.cons key v .nil)
  | key, v, .nil, _ => rfl
  | key, v, .cons k' v' fs, h => by
    rw [objKeys, List.mem_cons] at h
    push_neg at h
    rw [objInsert, if_neg (fun hh => h.1 hh.symm), objAppend,
      objInsert_not_mem key v fs h.2]

theorem buildObjAux_disjoint : ∀ (ps acc : JsonObj),
    (∀ k ∈ objKeys ps, k ∉ objKeys acc) → (objKeys ps).Nodup →
      buildObjAux acc ps = objAppend acc ps
  | .nil, acc, _, _ => by rw [buildObjAux, objAppend_nil]
  | .cons k v rest, acc, hdisj, hnodup => by
    rw [buildObjAux, objInsert_not_mem k v acc
      (hdisj k (by rw [objKeys]; exact List.mem_cons_self _ _))]
    rw [objKeys, List.nodup_cons] at hnodup
    have hstep := buildObjAux_disjoint rest (objAppend acc (.cons k v .nil))
      (by
        intro k' hk'
        rw [objKeys_objAppend, List.mem_append]
        push_neg
        constructor
        · exact hdisj k' (by rw [objKeys]; exact List.mem_cons_of_mem _ hk')
        · simp only [objKeys, List.mem_singleton]
          intro hh
          exact hnodup.1 (hh ▸ hk'))
      hnodup.2
    rw [hstep, objAppend_assoc]
    rfl

theorem buildObj_self (fs : JsonObj) (h : (objKeys fs).Nodup) : buildObj fs = fs := by
  rw [buildObj, buildObjAux_disjoint fs .nil (fun k _ => by simp [objKeys]) h]
  rfl

theorem parseVal_lbrack (f : Nat) (Y : List Char) :
    parseVal (f + 1) ('[' :: Y) =
      (match skipWs Y with
       | [] => none
       | c2 :: r2 =>
         if c2 = ']' then some (.arr .nil, r2)
         else
           match parseElems f (c2 :: r2) with
           | some (xs, t) => some (.arr xs, t)
           | none => none) := rfl

theorem parseVal_lbrace (f : Nat) (Y : List Char) :
    parseVal (f + 1) ('{' :: Y) =
      (match skipWs Y with
       | [] => none
       | c2 :: r2 =>
         if c2 = '}' then some (.obj .nil, r2)
         else
           match parseMembers f (c2 :: r2) with
           | some (ps, t) => some (.obj (buildObj ps), t)
           | none => none) := rfl

theorem parseVal_lbrack_cons (f : Nat) (c2 : Char) (r2 Y : List Char)
    (hskip : skipWs Y = c2 :: r2) :
    parseVal (f + 1) ('[' :: Y) =
      (if c2 = ']' then some (.arr .nil, r2)
       else
         match parseElems f (c2 :: r2) with
         | some (xs, t) => some (.arr xs, t)
         | none => none) := by
  rw [parseVal_lbrack, hskip]

theorem parseVal_lbrace_cons (f : Nat) (c2 : Char) (r2 Y : List Char)
    (hskip : skipWs Y = c2 :: r2) :
    parseVal (f + 1) ('{' :: Y) =
      (if c2 = '}' then some (.obj .nil, r2)
       else
         match parseMembers f (c2 :: r2) with
         | some (ps, t) => some (.obj (buildObj ps), t)
         | none => none) := by
  rw [parseVal_lbrace, hskip]

theorem parse_render_bounded : ∀ N : Nat,
    (∀ v : JsonVal, jsizeVal v ≤ N → ∀ fuel rest, jsizeVal v ≤ fuel → Delim rest →
      WFVal v → parseVal fuel (renderVal v ++ rest) = some (v, rest)) ∧
    (∀ (x : JsonVal) (xs : JsonArr), jsizeArr (.cons x xs) ≤ N →
      ∀ fuel rest, jsizeArr (.cons x xs) ≤ fuel → Delim rest → WFVal x → WFArr xs →
      parseElems fuel (renderVal x ++ (renderElems xs ++ (']' :: rest))) =
        some (.cons x xs, rest)) ∧
    (∀ (key : List Char) (v : JsonVal) (fs : JsonObj), jsizeObj (.cons key v fs) ≤ N →
      ∀ fuel rest, jsizeObj (.cons key v fs) ≤ fuel → Delim rest → WFVal v → WFObj fs →
      parseMembers fuel
        ('"' :: (key.flatMap escapeChar ++ '"' ::
          (':' :: ' ' :: (renderVal v ++ (renderMembers fs ++ ('}' :: rest)))))) =
        some (.cons key v fs, rest)) := by
  intro N
  induction N with
  | zero =>
    refine ⟨?_, ?_, ?_⟩
    · intro v h
      exact absurd h (by have := jsizeVal_pos v; omega)
    · intro x xs h
      exact absurd h (by have := jsizeArr_pos (.cons x xs); omega)
    · intro key v fs h
      exact absurd h (by have := jsizeObj_pos (.cons key v fs); omega)
  | succ N ih =>
    obtain ⟨ihV, ihA, ihM⟩ := ih
    refine ⟨?_, ?_, ?_⟩
    · intro v hN fuel rest hfuel hdelim hwf
      obtain ⟨f, rfl⟩ : ∃ f, fuel = f + 1 := ⟨fuel - 1, by have := jsizeVal_pos v; omega⟩
      cases v with
      | null => simp [renderVal, parseVal]
      | bool b =>
        cases b with
        | true => simp [renderVal, parseVal]
        | false => simp [renderVal, parseVal]
      | num m e =>
        obtain ⟨c, cs, hc, hd⟩ := renderNum_head m e
        have hne : c ≠ 'n' ∧ c ≠ 't' ∧ c ≠ 'f' ∧ c ≠ '"' ∧ c ≠ '[' ∧ c ≠ '{' := by
          rcases hd with hd | hd
          · subst hd
            exact ⟨by decide, by decide, by decide, by decide, by decide, by decide⟩
          · exact ⟨isDigit_ne hd 'n' (by right; decide), isDigit_ne hd 't' (by right; decide),
              isDigit_ne hd 'f' (by right; decide), isDigit_ne hd '"' (by left; decide),
              isDigit_ne hd '[' (by right; decide), isDigit_ne hd '{' (by right; decide)⟩
        obtain ⟨h1, h2, h3, h4, h5, h6⟩ := hne
        rw [show renderVal (.num m e) = renderNum m e from rfl, hc, List.cons_append]
        simp only [parseVal]
        rw [if_neg h1, if_neg h2, if_neg h3, if_neg h4, if_neg h5, if_neg h6]
        rw [show c :: (cs ++ rest) = (c :: cs) ++ rest from (List.cons_append c cs rest).symm,
          ← hc, parseNum_renderNum m e rest hdelim.numDelim]
      | str s =>
        have hps : parseStr (s.flatMap escapeChar ++ ('"' :: rest)) = some (s, rest) := by
          unfold parseStr
          apply parseStrF_render
          have := flatMap_escape_length s
          rw [List.length_append]
          simp only [List.length_cons]
          omega
        have hshape : renderVal (.str s) ++ rest =
            '"' :: (s.flatMap escapeChar ++ ('"' :: rest)) := by
          simp [renderVal, renderStr]
        rw [hshape]
        simp [parseVal, hps]
      | arr xs =>
        cases xs with
        | nil =>
          rw [show renderVal (.arr .nil) ++ rest = '[' :: (']' :: rest) from rfl]
          simp [parseVal, skipWs, isJsonWs]
        | cons x xs =>
          have hshape : renderVal (.arr (.cons x xs)) ++ rest =
              '[' :: (renderVal x ++ (renderElems xs ++ (']' :: rest))) := by
            simp [renderVal]
          have hsz : jsizeArr (.cons x xs) ≤ N ∧ jsizeArr (.cons x xs) ≤ f := by
            simp only [jsizeVal] at hN hfuel
            omega
          have helem := ihA x xs hsz.1 f rest hsz.2 hdelim
            (by exact hwf.1) (by exact hwf.2)
          obtain ⟨c2, cs2, hx, hw2, hbr2, _, _⟩ := renderVal_head x
          have hskip : skipWs (renderVal x ++ (renderElems xs ++ (']' :: rest))) =
              c2 :: (cs2 ++ (renderElems xs ++ (']' :: rest))) := by
            rw [skipWs_render x (renderElems xs ++ (']' :: rest)), hx, List.cons_append]
          rw [hshape, parseVal_lbrack_cons f c2 _ _ hskip, if_neg hbr2]
          rw [show c2 :: (cs2 ++ (renderElems xs ++ (']' :: rest))) =
            renderVal x ++ (renderElems xs ++ (']' :: rest)) by rw [hx, List.cons_append]]
          rw [helem]
      | obj fs =>
        cases fs with
        | nil =>
          rw [show renderVal (.obj .nil) ++ rest = '{' :: ('}' :: rest) from rfl]
          simp [parseVal, skipWs, isJsonWs]
        | cons key v fs =>
          have hshape : renderVal (.obj (.cons key v fs)) ++ rest =
              '{' :: ('"' :: (key.flatMap escapeChar ++ '"' ::
                (':' :: ' ' :: (renderVal v ++ (renderMembers fs ++ ('}' :: rest)))))) := by
            simp [renderVal, renderStr]
          have hsz : jsizeObj (.cons key v fs) ≤ N ∧ jsizeObj (.cons key v fs) ≤ f := by
            simp only [jsizeVal] at hN hfuel
            omega
          have hwf' : (objKeys (.cons key v fs)).Nodup ∧ WFObj (.cons key v fs) := hwf
          have hmem := ihM key v fs hsz.1 f rest hsz.2 hdelim
            (by exact hwf'.2.1) (by exact hwf'.2.2)
          have hskip : skipWs ('"' :: (key.flatMap escapeChar ++ '"' ::
              (':' :: ' ' :: (renderVal v ++ (renderMembers fs ++ ('}' :: rest)))))) =
              '"' :: (key.flatMap escapeChar ++ '"' ::
              (':' :: ' ' :: (renderVal v ++ (renderMembers fs ++ ('}' :: rest))))) :=
            skipWs_cons _ (by decide)
          rw [hshape, parseVal_lbrace_cons f '"' _ _ hskip, if_neg (by decide), hmem]
          show some (JsonVal.obj (buildObj (JsonObj.cons key v fs)), rest) =
            some (JsonVal.obj (JsonObj.cons key v fs), rest)
          rw [buildObj_self _ hwf'.1]
    · intro x xs hN fuel rest hfuel hdelim hwx hwxs
      obtain ⟨f, rfl⟩ : ∃ f, fuel = f + 1 :=
        ⟨fuel - 1, by have := jsizeArr_pos (.cons x xs); omega⟩
      have hdY : Delim (renderElems xs ++ (']' :: rest)) := by
        cases xs with
        | nil => exact Or.inr (Or.inl rfl)
        | cons y ys => exact Or.inl rfl
      have hszx : jsizeVal x ≤ N ∧ jsizeVal x ≤ f := by
        simp only [jsizeArr] at hN hfuel
        omega
      have hx := ihV x hszx.1 f (renderElems xs ++ (']' :: rest)) hszx.2 hdY hwx
      simp only [parseElems, hx]
      cases xs with
      | nil =>
        rw [show renderElems .nil ++ (']' :: rest) = ']' :: rest from rfl]
        rw [skipWs_cons _ (by decide)]
        rfl
      | cons y ys =>
        have hshape : renderElems (.cons y ys) ++ (']' :: rest) =
            ',' :: ' ' :: (renderVal y ++ (renderElems ys ++ (']' :: rest))) := by
          simp [renderElems]
        rw [hshape]
        rw [skipWs_cons _ (by decide)]
        have hnext : parseElems f (skipWs (' ' :: (renderVal y ++
            (renderElems ys ++ (']' :: rest))))) = some (.cons y ys, rest) := by
          rw [skipWs_space, skipWs_render]
          have hsz : jsizeArr (.cons y ys) ≤ N ∧ jsizeArr (.cons y ys) ≤ f := by
            simp only [jsizeArr] at hN hfuel ⊢
            omega
          exact ihA y ys hsz.1 f rest hsz.2 hdelim hwxs.1 hwxs.2
        show (match parseElems f (skipWs (' ' :: (renderVal y ++
            (renderElems ys ++ (']' :: rest))))) with
          | some (xs, t) => some (JsonArr.cons x xs, t)
          | none => none) = some (JsonArr.cons x (JsonArr.cons y ys), rest)
        rw [hnext]
    · intro key v fs hN fuel rest hfuel hdelim hwv hwfs
      obtain ⟨f, rfl⟩ : ∃ f, fuel = f + 1 :=
        ⟨fuel - 1, by have := jsizeObj_pos (.cons key v fs); omega⟩
      have hps : parseStr (key.flatMap escapeChar ++ '"' ::
          (':' :: ' ' :: (renderVal v ++ (renderMembers fs ++ ('}' :: rest))))) =
          some (key, ':' :: ' ' :: (renderVal v ++ (renderMembers fs ++ ('}' :: rest)))) := by
        unfold parseStr
        apply parseStrF_render
        have := flatMap_escape_length key
        rw [List.length_append]
        simp only [List.length_cons]
        omega
      simp only [parseMembers, hps]
      rw [skipWs_cons _ (by decide)]
      have hdW : Delim (renderMembers fs ++ ('}' :: rest)) := by
        cases fs with
        | nil => exact Or.inr (Or.inr rfl)
        | cons k2 v2 fs2 => exact Or.inl rfl
      have hszv : jsizeVal v ≤ N ∧ jsizeVal v ≤ f := by
        simp only [jsizeObj] at hN hfuel
        omega
      have hv : parseVal f (skipWs (' ' :: (renderVal v ++
          (renderMembers fs ++ ('}' :: rest))))) =
          some (v, renderMembers fs ++ ('}' :: rest)) := by
        rw [skipWs_space, skipWs_render]
        exact ihV v hszv.1 f _ hszv.2 hdW hwv
      show (match parseVal f (skipWs (' ' :: (renderVal v ++
          (renderMembers fs ++ ('}' :: rest))))) with
        | none => none
        | some (v', r3) =>
          match skipWs r3 with
          | ',' :: r4 =>
            (match parseMembers f (skipWs r4) with
             | some (ps, t) => some (JsonObj.cons key v' ps, t)
             | none => none)
          | '}' :: r4 => some (JsonObj.cons key v' JsonObj.nil, r4)
          | _ => none) = some (JsonObj.cons key v fs, rest)
      rw [hv]
      show (match skipWs (renderMembers fs ++ ('}' :: rest)) with
        | ',' :: r4 =>
          (match parseMembers f (skipWs r4) with
           | some (ps, t) => some (JsonObj.cons key v ps, t)
           | none => none)
        | '}' :: r4 => some (JsonObj.cons key v JsonObj.nil, r4)
        | _ => none) = some (JsonObj.cons key v fs, rest)
      cases fs with
      | nil =>
        rw [show renderMembers .nil ++ ('}' :: rest) = '}' :: rest from rfl]
        rw [skipWs_cons _ (by decide)]
        rfl
      | cons k2 v2 fs2 =>
        have hshape : renderMembers (.cons k2 v2 fs2) ++ ('}' :: rest) =
            ',' :: ' ' :: ('"' :: (k2.flatMap escapeChar ++ '"' ::
              (':' :: ' ' :: (renderVal v2 ++ (renderMembers fs2 ++ ('}' :: rest)))))) := by
          simp [renderMembers, renderStr]
        rw [hshape]
        rw [skipWs_cons _ (by decide)]
        have hnext : parseMembers f (skipWs (' ' :: ('"' :: (k2.flatMap escapeChar ++ '"' ::
            (':' :: ' ' :: (renderVal v2 ++ (renderMembers fs2 ++ ('}' :: rest)))))))) =
            some (.cons k2 v2 fs2, rest) := by
          rw [skipWs_space, skipWs_cons _ (by decide)]
          have hsz : jsizeObj (.cons k2 v2 fs2) ≤ N ∧ jsizeObj (.cons k2 v2 fs2) ≤ f := by
            simp only [jsizeObj] at hN hfuel ⊢
            omega
          exact ihM k2 v2 fs2 hsz.1 f rest hsz.2 hdelim hwfs.1 hwfs.2
        show (match parseMembers f (skipWs (' ' :: ('"' :: (k2.flatMap escapeChar ++ '"' ::
            (':' :: ' ' :: (renderVal v2 ++ (renderMembers fs2 ++ ('}' :: rest)))))))) with
          | some (ps, t) => some (JsonObj.cons key v ps, t)
          | none => none) = some (JsonObj.cons key v (JsonObj.cons k2 v2 fs2), rest)
        rw [hnext]

theorem objKeys_objInsert : ∀ (k : List Char) (v : JsonVal) (fs : JsonObj),
    objKeys (objInsert k v fs) =
      if k ∈ objKeys fs then objKeys fs else objKeys fs ++ [k]
  | k, v, .nil => by simp [objInsert, objKeys]
  | k, v, .cons k' v' fs => by
    by_cases h : k' = k
    · subst h
      simp [objInsert, objKeys]
    · rw [objInsert, if_neg h, objKeys, objKeys, objKeys_objInsert k v fs]
      by_cases hm : k ∈ objKeys fs
      · rw [if_pos hm, if_pos (List.mem_cons_of_mem _ hm)]
      · rw [if_neg hm, if_neg (by
          rw [List.mem_cons]
          push_neg
          exact ⟨fun hh => h hh.symm, hm⟩)]
        rw [List.cons_append]

theorem buildObjAux_keys_nodup : ∀ (ps acc : JsonObj),
    (objKeys acc).Nodup → (objKeys (buildObjAux acc ps)).Nodup
  | .nil, _, h => h
  | .cons k v rest, acc, h => by
    rw [buildObjAux]
    apply buildObjAux_keys_nodup rest
    rw [objKeys_objInsert]
    by_cases hm : k ∈ objKeys acc
    · rw [if_pos hm]
      exact h
    · rw [if_neg hm]
      simp [List.nodup_append, h, hm]

theorem WFObj_objInsert : ∀ (k : List Char) (v : JsonVal) (fs : JsonObj),
    WFVal v → WFObj fs → WFObj (objInsert k v fs)
  | k, v, .nil, hv, _ => ⟨hv, trivial⟩
  | k, v, .cons k' v' fs, hv, hfs => by
    rw [objInsert]
    by_cases h : k' = k
    · rw [if_pos h]
      exact ⟨hv, hfs.2⟩
    · rw [if_neg h]
      exact ⟨hfs.1, WFObj_objInsert k v fs hv hfs.2⟩

theorem WFObj_buildObjAux : ∀ (ps acc : JsonObj),
    WFObj acc → WFObj ps → WFObj (buildObjAux acc ps)
  | .nil, _, hacc, _ => hacc
  | .cons k v rest, acc, hacc, hps =>
    WFObj_buildObjAux rest _ (WFObj_objInsert k v acc hps.1 hacc) hps.2

theorem WFVal_buildObj (ps : JsonObj) (h : WFObj ps) :
    (objKeys (buildObj ps)).Nodup ∧ WFObj (buildObj ps) :=
  ⟨buildObjAux_keys_nodup ps .nil (by simp [objKeys]),
   WFObj_buildObjAux ps .nil trivial h⟩

theorem parseNumBody_shape (neg : Bool) (s : List Char) (v : JsonVal) (r : List Char)
    (h : parseNumBody neg s = some (v, r)) : ∃ m e, v = .num m e := by
  unfold parseNumBody at h
  split at h
  · exact absurd h (by simp)
  · split at h
    · exact absurd h (by simp)
    · split at h
      · exact absurd h (by simp)
      · split at h <;>
          (dsimp only at h
           split at h <;>
             (simp only [Option.some.injEq, Prod.mk.injEq] at h
              obtain ⟨h1, h2⟩ := h
              exact ⟨_, _, h1.symm⟩))

theorem parseNum_shape (s : List Char) (v : JsonVal) (r : List Char)
    (h : parseNum s = some (v, r)) : ∃ m e, v = .num m e := by
  unfold parseNum at h
  split at h
  · exact absurd h (by simp)
  · split at h
    · exact parseNumBody_shape _ _ _ _ h
    · exact parseNumBody_shape _ _ _ _ h

theorem parse_WF : ∀ fuel : Nat,
    (∀ s v r, parseVal fuel s = some (v, r) → WFVal v) ∧
    (∀ s xs r, parseElems fuel s = some (xs, r) → WFArr xs) ∧
    (∀ s ps r, parseMembers fuel s = some (ps, r) → WFObj ps) := by
  intro fuel
  induction fuel with
  | zero =>
    refine ⟨?_, ?_, ?_⟩ <;> intro s x r h <;> exact absurd h (by simp [parseVal, parseElems, parseMembers])
  | succ fuel ih =>
    obtain ⟨ihV, ihA, ihM⟩ := ih
    refine ⟨?_, ?_, ?_⟩
    · intro s v r h
      match s with
      | [] => exact absurd h (by simp [parseVal])
      | c :: cr =>
        simp only [parseVal] at h
        split_ifs at h
        · split at h
          · simp only [Option.some.injEq, Prod.mk.injEq] at h
            rw [← h.1]
            trivial
          · exact absurd h (by simp)
        · split at h
          · simp only [Option.some.injEq, Prod.mk.injEq] at h
            rw [← h.1]
            trivial
          · exact absurd h (by simp)
        · split at h
          · simp only [Option.some.injEq, Prod.mk.injEq] at h
            rw [← h.1]
            trivial
          · exact absurd h (by simp)
        · split at h
          · simp only [Option.some.injEq, Prod.mk.injEq] at h
            rw [← h.1]
            trivial
          · exact absurd h (by simp)
        · split at h
          · exact absurd h (by simp)
          · split_ifs at h
            · simp only [Option.some.injEq, Prod.mk.injEq] at h
              rw [← h.1]
              trivial
            · split at h
              · simp only [Option.some.injEq, Prod.mk.injEq] at h
                rw [← h.1]
                exact ihA _ _ _ (by assumption)
              · exact absurd h (by simp)
        · split at h
          · exact absurd h (by simp)
          · split_ifs at h
            · simp only [Option.some.injEq, Prod.mk.injEq] at h
              rw [← h.1]
              exact ⟨by simp [objKeys], trivial⟩
            · split at h
              · simp only [Option.some.injEq, Prod.mk.injEq] at h
                rw [← h.1]
                rename_i ps t heq
                exact WFVal_buildObj ps (ihM _ _ _ heq)
              · exact absurd h (by simp)
        · obtain ⟨m, e, hv⟩ := parseNum_shape _ _ _ h
          rw [hv]
          trivial
    · intro s xs r h
      simp only [parseElems] at h
      split at h
      · exact absurd h (by simp)
      · rename_i v0 r0 heq0
        split at h
        · split at h
          · simp only [Option.some.injEq, Prod.mk.injEq] at h
            rw [← h.1]
            rename_i xs0 t heq1
            exact ⟨ihV _ _ _ heq0, ihA _ _ _ heq1⟩
          · exact absurd h (by simp)
        · simp only [Option.some.injEq, Prod.mk.injEq] at h
          rw [← h.1]
          exact ⟨ihV _ _ _ heq0, trivial⟩
        · exact absurd h (by simp)
    · intro s ps r h
      match s with
      | [] => exact absurd h (by simp [parseMembers])
      | c :: cr =>
        simp only [parseMembers] at h
        split at h
        · split at h
          · exact absurd h (by simp)
          · rename_i key r1 heq0
            split at h
            · split at h
              · exact absurd h (by simp)
              · rename_i v0 r3 heq1
                split at h
                · split at h
                  · simp only [Option.some.injEq, Prod.mk.injEq] at h
                    rw [← h.1]
                    rename_i ps0 t heq2
                    exact ⟨ihV _ _ _ heq1, ihM _ _ _ heq2⟩
                  · exact absurd h (by simp)
                · simp only [Option.some.injEq, Prod.mk.injEq] at h
                  rw [← h.1]
                  exact ⟨ihV _ _ _ heq1, trivial⟩
                · simp at h
            · simp at h
        · exact absurd h (by simp)

mutual
theorem jsizeVal_le_render : ∀ v : JsonVal, jsizeVal v ≤ (renderVal v).length + 1
  | .null => by simp [jsizeVal, renderVal]
  | .bool b => by cases b <;> simp [jsizeVal, renderVal]
  | .num m e => by
    have := jsizeVal_pos (.num m e)
    simp only [jsizeVal] at *
    omega
  | .str s => by
    have := jsizeVal_pos (.str s)
    simp only [jsizeVal] at *
    omega
  | .arr .nil => by simp [jsizeVal, jsizeArr, renderVal]
  | .arr (.cons x xs) => by
    have h1 := jsizeVal_le_render x
    have h2 := jsizeArr_le_render xs
    simp only [jsizeVal, jsizeArr, renderVal, List.length_append, List.length_cons]
    omega
  | .obj .nil => by simp [jsizeVal, jsizeObj, renderVal]
  | .obj (.cons k v fs) => by
    have h1 := jsizeVal_le_render v
    have h2 := jsizeObj_le_render fs
    simp only [jsizeVal, jsizeObj, renderVal, renderStr, List.length_append,
      List.length_cons]
    omega
theorem jsizeArr_le_render : ∀ xs : JsonArr, jsizeArr xs ≤ (renderElems xs).length + 1
  | .nil => by simp [jsizeArr, renderElems]
  | .cons x xs => by
    have h1 := jsizeVal_le_render x
    have h2 := jsizeArr_le_render xs
    simp only [jsizeArr, renderElems, List.length_append, List.length_cons]
    omega
theorem jsizeObj_le_render : ∀ fs : JsonObj, jsizeObj fs ≤ (renderMembers fs).length + 1
  | .nil => by simp [jsizeObj, renderMembers]
  | .cons k v fs => by
    have h1 := jsizeVal_le_render v
    have h2 := jsizeObj_le_render fs
    simp only [jsizeObj, renderMembers, renderStr, List.length_append, List.length_cons]
    omega
end

/-- `json.loads` inverts `json.dumps` on well-formed values. -/
theorem json_loads_render (v : JsonVal) (hwf : WFVal v) :
    json_loads (renderVal v) = some v := by
  have hskip : skipWs (renderVal v) = renderVal v := by
    have := skipWs_render v []
    simpa using this
  have hlen : jsizeVal v ≤ (renderVal v).length + 1 := jsizeVal_le_render v
  have h := (parse_render_bounded (jsizeVal v)).1 v le_rfl ((renderVal v).length + 1) []
    hlen trivial hwf
  rw [List.append_nil] at h
  rw [json_loads, hskip, h]
  simp [skipWs]

theorem parseVal_obj_shape : ∀ (fuel : Nat) (s : List Char) (v : JsonVal) (r : List Char),
    parseVal fuel ('{' :: s) = some (v, r) → ∃ fs, v = .obj fs := by
  intro fuel s v r h
  match fuel with
  | 0 => exact absurd h (by simp [parseVal])
  | f + 1 =>
    rw [parseVal_lbrace] at h
    split at h
    · exact absurd h (by simp)
    · split_ifs at h
      · simp only [Option.some.injEq, Prod.mk.injEq] at h
        exact ⟨.nil, h.1.symm⟩
      · split at h
        · simp only [Option.some.injEq, Prod.mk.injEq] at h
          exact ⟨_, h.1.symm⟩
        · exact absurd h (by simp)

theorem json_loads_nil : json_loads [] = none := rfl

theorem find_json_ok_elim (text : List Char) (v : JsonVal) (h : find_json text = .ok v) :
    ∃ a b, List.findIdx? (fun x => x = '{') text = some a ∧
      lastIdxOf '}' text = some b ∧
      json_loads ((text.drop a).take (b + 1 - a)) = some v := by
  unfold find_json at h
  split at h
  · rename_i a b ha hb
    split at h
    · rename_i w heq
      simp only [Except.ok.injEq] at h
      subst h
      exact ⟨a, b, ha, hb, heq⟩
    · simp at h
  · exact absurd h (by simp)

theorem json_loads_some_elim (s : List Char) (v : JsonVal) (h : json_loads s = some v) :
    ∃ r, parseVal (s.length + 1) (skipWs s) = some (v, r) ∧ skipWs r = [] := by
  unfold json_loads at h
  split at h
  · rename_i w r heq
    split_ifs at h with hr
    · simp only [Option.some.injEq] at h
      subst h
      exact ⟨r, heq, hr⟩
  · exact absurd h (by simp)

theorem find_json_ok_obj (text : List Char) (v : JsonVal) (h : find_json text = .ok v) :
    (∃ fs, v = .obj fs) ∧ WFVal v := by
  obtain ⟨a, b, ha, hb, hload⟩ := find_json_ok_elim text v h
  obtain ⟨halt, hget, _⟩ := List.findIdx?_eq_some_iff_getElem.mp ha
  by_cases hba : b + 1 - a = 0
  · rw [hba] at hload
    simp only [List.take_zero] at hload
    exact absurd hload (by rw [json_loads_nil]; simp)
  · obtain ⟨k, hk⟩ : ∃ k, b + 1 - a = k + 1 := ⟨b - a, by omega⟩
    rw [hk, List.drop_eq_getElem_cons halt] at hload
    have hbrace : text[a] = '{' := by simpa using hget
    rw [hbrace, List.take_succ_cons] at hload
    obtain ⟨r, hparse, _⟩ := json_loads_some_elim _ _ hload
    rw [show skipWs ('{' :: (text.drop (a + 1)).take k) =
      '{' :: (text.drop (a + 1)).take k from skipWs_cons _ (by decide)] at hparse
    refine ⟨parseVal_obj_shape _ _ _ _ hparse, ?_⟩
    exact ((parse_WF _).1 _ _ _ hparse)

theorem renderVal_obj_ends (fs : JsonObj) :
    ∃ u, renderVal (.obj fs) = u ++ ['}'] ∧ u.head? = some '{' := by
  cases fs with
  | nil => exact ⟨['{'], rfl, rfl⟩
  | cons k v fs => exact ⟨'{' :: (renderStr k ++ ':' :: ' ' :: renderVal v ++
      renderMembers fs), rfl, rfl⟩

theorem lastIdxOf_append_last (u : List Char) (c : Char) :
    lastIdxOf c (u ++ [c]) = some u.length := by
  rw [lastIdxOf, List.reverse_append]
  simp only [List.reverse_cons, List.reverse_nil, List.nil_append, List.singleton_append,
    List.findIdx?_cons]
  simp

/-- `find_json ∘ json.dumps` recovers any object `find_json` produced. -/
theorem find_json_render_obj (fs : JsonObj) (hwf : WFVal (.obj fs)) :
    find_json (renderVal (.obj fs)) = .ok (.obj fs) := by
  obtain ⟨u, hu, hhead⟩ := renderVal_obj_ends fs
  obtain ⟨u', hu'⟩ : ∃ u', u = '{' :: u' := by
    cases u with
    | nil => exact absurd hhead (by simp)
    | cons c t =>
      have hc : c = '{' := by simpa using hhead
      exact ⟨t, by rw [hc]⟩
  have hfirst : List.findIdx? (fun x => x = '{') (renderVal (.obj fs)) = some 0 := by
    rw [hu, hu', List.cons_append, List.findIdx?_cons]
    simp
  have hlast : lastIdxOf '}' (renderVal (.obj fs)) = some u.length := by
    rw [hu, lastIdxOf_append_last]
  have hlen : (renderVal (.obj fs)).length = u.length + 1 := by
    rw [hu]
    simp
  rw [find_json, hfirst, hlast]
  show (match json_loads (((renderVal (.obj fs)).drop 0).take (u.length + 1 - 0)) with
    | some w => Except.ok w
    | none => Except.error FindJsonError.malformedJson) = Except.ok (JsonVal.obj fs)
  have hspan : ((renderVal (.obj fs)).drop 0).take (u.length + 1 - 0) =
      renderVal (.obj fs) := by
    rw [List.drop_zero, Nat.sub_zero, ← hlen, List.take_length]
  rw [hspan, json_loads_render _ hwf]

theorem findIdx_none_iff_not_mem (c : Char) (text : List Char) :
    List.findIdx? (fun x => x = c) text = none ↔ c ∉ text := by
  rw [List.findIdx?_eq_none_iff]
  constructor
  · intro h hm
    have := h c hm
    simp at this
  · intro h x hx
    simp only [decide_eq_false_iff_not]
    intro hxc
    exact h (hxc ▸ hx)

theorem lastIdxOf_none_iff (c : Char) (text : List Char) :
    lastIdxOf c text = none ↔ c ∉ text := by
  rw [lastIdxOf, Option.map_eq_none', findIdx_none_iff_not_mem, List.mem_reverse]

/-- C3: `find_json` takes the span from the first `{` to the last `}` and
`json.loads`-parses it: the no-JSON error occurs exactly when the text
lacks `{` or `}`; with both present it returns the parsed object of the
span, or the malformed-JSON error when the span does not parse. -/
theorem C3_find_json_span (text : List Char) :
    (find_json text = .error .noJson ↔ ¬('{' ∈ text ∧ '}' ∈ text)) ∧
    (∀ a b, List.findIdx? (fun x => x = '{') text = some a →
      lastIdxOf '}' text = some b →
      find_json text =
        (match json_loads ((text.drop a).take (b + 1 - a)) with
         | some v => .ok v
         | none => .error .malformedJson)) := by
  constructor
  · constructor
    · intro h hmem
      obtain ⟨h1, h2⟩ := hmem
      cases hfi : List.findIdx? (fun x => x = '{') text with
      | none => exact ((findIdx_none_iff_not_mem '{' text).mp hfi) h1
      | some a =>
        cases hli : lastIdxOf '}' text with
        | none => exact ((lastIdxOf_none_iff '}' text).mp hli) h2
        | some b =>
          rw [find_json, hfi, hli] at h
          cases hl : json_loads ((text.drop a).take (b + 1 - a)) with
          | some w => simp [hl] at h
          | none => simp [hl] at h
    · intro h
      rcases not_and_or.mp h with h | h
      · rw [find_json, (findIdx_none_iff_not_mem '{' text).mpr h]
      · cases hfi : List.findIdx? (fun x => x = '{') text with
        | none => rw [find_json, hfi]
        | some a => rw [find_json, hfi, (lastIdxOf_none_iff '}' text).mpr h]
  · intro a b ha hb
    rw [find_json, ha, hb]

/-- Witness for C3 at the concrete text `x{"a": 1}y` (wrapper text around
a JSON object) and at `no data here` (no braces at all). -/
theorem C3_witness :
    find_json ['x', '{', '"', 'a', '"', ':', ' ', '1', '}', 'y'] =
      .ok (.obj (.cons ['a'] (.num 1 0) .nil)) ∧
    find_json ['n', 'o', ' ', 'd', 'a', 't', 'a'] = .error .noJson := by
  constructor
  · have h := (C3_find_json_span ['x', '{', '"', 'a', '"', ':', ' ', '1', '}', 'y']).2
      1 8 rfl rfl
    rw [h]
    rfl
  · have h := (C3_find_json_span ['n', 'o', ' ', 'd', 'a', 't', 'a']).1
    exact h.mpr (by decide)

/-- C10: when both braces occur but the last `}` precedes the first `{`,
`find_json` does not report the no-JSON error — the (empty) span fails to
parse and the malformed-JSON error is reported instead. -/
theorem C10_reversed_braces_malformed (text : List Char) (a b : Nat)
    (ha : List.findIdx? (fun x => x = '{') text = some a)
    (hb : lastIdxOf '}' text = some b) (hba : b < a) :
    find_json text = .error .malformedJson := by
  rw [find_json, ha, hb]
  show (match json_loads ((text.drop a).take (b + 1 - a)) with
    | some w => Except.ok w
    | none => Except.error FindJsonError.malformedJson) =
      Except.error FindJsonError.malformedJson
  rw [show b + 1 - a = 0 by omega, List.take_zero, json_loads_nil]

/-- Witness for C10 at the concrete text `}{`. -/
theorem C10_witness : find_json ['}', '{'] = .error .malformedJson :=
  C10_reversed_braces_malformed ['}', '{'] 1 0 rfl rfl (by decide)

/-! ## Page rasterizer: `pdf_or_image_to_pages` (main.py lines 79-94)

The external decoders are oracles: `convert_from_bytes` (pdf2image) and
`Image.open` (PIL), each returning `none` when the library raises.  A PIL
image is its content plus a color mode; `convert("RGB")` normalizes the
mode.  `pdf2image` documents RGB output for its pages, which claims about
color modes take as a hypothesis on the oracle. -/

inductive ImgMode : Type
  | RGB : ImgMode
  | other (tag : Nat) : ImgMode
deriving DecidableEq

structure PILImage where
  content : Nat
  mode : ImgMode
deriving DecidableEq

/-- `img.convert("RGB")`. -/
def imageConvertRGB (img : PILImage) : PILImage := { img with mode := .RGB }

structure Decoders where
  convert_from_bytes : List Nat → Option (List PILImage)
  image_open : List Nat → Option PILImage

/-- `url.lower().endswith(".pdf")` (line 80, 83). -/
def endsWithPdf (url : List Char) : Bool :=
  ['.', 'p', 'd', 'f'].isSuffixOf (pyLower url)

/-- `pdf_or_image_to_pages` — the try/except structure of lines 82-94:
the hint-chosen attempt first; on failure the except block retries PDF
conversion and then single-image decode; `none` means the final attempt's
exception escapes. -/
def pdf_or_image_to_pages (D : Decoders) (file_bytes : List Nat) (url : List Char) :
    Option (List PILImage) :=
  let firstTry : Option (List PILImage) :=
    if endsWithPdf url then D.convert_from_bytes file_bytes
    else (D.image_open file_bytes).map (fun img => [imageConvertRGB img])
  match firstTry with
  | some pages => some pages
  | none =>
    match D.convert_from_bytes file_bytes with
    | some pages => some pages
    | none => (D.image_open file_bytes).map (fun img => [imageConvertRGB img])

/-- The fallback policy as the spec states it (§4.1, claim C4): PDF-like
hints try PDF conversion then fall back to a single image; other hints try
a single image, fall back to PDF conversion, then re-attempt image
decoding. -/
def rasterizeSpec (D : Decoders) (file_bytes : List Nat) (url : List Char) :
    Option (List PILImage) :=
  if endsWithPdf url then
    match D.convert_from_bytes file_bytes with
    | some pages => some pages
    | none => (D.image_open file_bytes).map (fun img => [imageConvertRGB img])
  else
    match D.image_open file_bytes with
    | some img => some [imageConvertRGB img]
    | none =>
      match D.convert_from_bytes file_bytes with
      | some pages => some pages
      | none => (D.image_open file_bytes).map (fun img => [imageConvertRGB img])

/-- C4: the rasterizer implements exactly the spec's hint-driven fallback
policy — PDF-like hints: PDF conversion, then single-image fallback;
non-PDF hints: image decode, then PDF conversion, then a re-attempted
image decode. -/
theorem C4_rasterizer_fallback_policy (D : Decoders) (file_bytes : List Nat)
    (url : List Char) :
    pdf_or_image_to_pages D file_bytes url = rasterizeSpec D file_bytes url := by
  rw [pdf_or_image_to_pages, rasterizeSpec]
  by_cases hpdf : endsWithPdf url
  · simp only [hpdf, if_true]
    cases D.convert_from_bytes file_bytes with
    | some pages => rfl
    | none => rfl
  · simp only [hpdf, if_false, Bool.false_eq_true]
    cases hio : D.image_open file_bytes with
    | some img => rfl
    | none =>
      cases D.convert_from_bytes file_bytes with
      | some pages => rfl
      | none => rfl

/-- C9: every page the rasterizer returns is RGB — image-decode paths
convert explicitly (`.convert("RGB")`, lines 86 and 93), and PDF pages are
RGB by pdf2image's documented contract (the hypothesis on the oracle). -/
theorem C9_pages_are_RGB (D : Decoders) (file_bytes : List Nat) (url : List Char)
    (hpdf : ∀ pages, D.convert_from_bytes file_bytes = some pages →
      ∀ img ∈ pages, img.mode = .RGB)
    (pages : List PILImage)
    (h : pdf_or_image_to_pages D file_bytes url = some pages) :
    ∀ img ∈ pages, img.mode = .RGB := by
  rw [pdf_or_image_to_pages] at h
  by_cases hu : endsWithPdf url
  · simp only [hu, if_true] at h
    cases hcv : D.convert_from_bytes file_bytes with
    | some ps =>
      rw [hcv] at h
      simp only [Option.some.injEq] at h
      subst h
      exact hpdf ps hcv
    | none =>
      rw [hcv] at h
      cases hio : D.image_open file_bytes with
      | some img =>
        rw [hio] at h
        simp only [Option.map_some', Option.some.injEq] at h
        subst h
        intro img' him
        rw [List.mem_singleton] at him
        rw [him]
        rfl
      | none =>
        rw [hio] at h
        exact absurd h (by simp)
  · simp only [hu, if_false, Bool.false_eq_true] at h
    cases hio : D.image_open file_bytes with
    | some img =>
      rw [hio] at h
      simp only [Option.map_some', Option.some.injEq] at h
      subst h
      intro img' him
      rw [List.mem_singleton] at him
      rw [him]
      rfl
    | none =>
      rw [hio] at h
      simp only [Option.map_none'] at h
      cases hcv : D.convert_from_bytes file_bytes with
      | some ps =>
        rw [hcv] at h
        simp only [Option.some.injEq] at h
        subst h
        exact hpdf ps hcv
      | none =>
        rw [hcv] at h
        exact absurd h (by simp)

/-- Concrete decoders for the C9 witness: a one-page RGB PDF conversion. -/
def rgbDecoders : Decoders :=
  ⟨fun _ => some [⟨0, .RGB⟩], fun _ => none⟩

/-- Witness for C9 at concrete decoders and a `.pdf` hint. -/
theorem C9_witness :
    pdf_or_image_to_pages rgbDecoders [] ['.', 'p', 'd', 'f'] =
      some [⟨0, ImgMode.RGB⟩] ∧
    (⟨0, ImgMode.RGB⟩ : PILImage).mode = ImgMode.RGB :=
  ⟨rfl,
    C9_pages_are_RGB rgbDecoders [] ['.', 'p', 'd', 'f']
      (fun pages h => by
        simp only [rgbDecoders, Option.some.injEq] at h
        subst h
        intro img him
        rw [List.mem_singleton] at him
        rw [him])
      [⟨0, ImgMode.RGB⟩] rfl ⟨0, ImgMode.RGB⟩ (List.mem_singleton.mpr rfl)⟩

/-! ## Extraction pipeline: `extract_from_document` (main.py lines 168-209)

The model call is an oracle returning the response text and usage
counters (`call_gemini_page`'s `getattr` defaulting is folded into the
oracle's plain numeric fields).  Python behaviours modelled explicitly:
iterating a non-iterable `items` value raises an uncaught `TypeError`
(`itemsNotIterable`); iterating a string or dict yields one-character
strings or keys, which per-item coercion then drops; a coerced item with
a non-string `item_name` makes the run fail downstream (at
`similarity`'s `.lower()` or at response-model validation), modelled as
`nameTypeError`. -/

inductive PipelineError : Type
  | downloadError : PipelineError
  | decodingError : PipelineError
  | noJson : PipelineError
  | malformedJson : PipelineError
  | itemsNotIterable : PipelineError
  | nameTypeError : PipelineError
deriving DecidableEq

structure ModelOracle where
  generate : PILImage → List Char × Nat × Nat × Nat

/-- `float(x)` on the string forms Python accepts (whitespace-stripped
sign, digits with optional fraction, optional exponent); IEEE specials
(`inf`, `nan`) and digit underscores are outside the exact model. -/
def parseFloatExp (base : ℚ) : List Char → Option ℚ
  | [] => some base
  | c :: r =>
    if c = 'e' || c = 'E' then
      match parseExpSign r with
      | (negE, r2) =>
        match takeDigits r2 with
        | ([], _) => none
        | (ds, rest) =>
          if rest = [] then
            some (if negE then base / 10 ^ digitsVal ds else base * 10 ^ digitsVal ds)
          else none
    else none

def parseFloatBody (s : List Char) : Option ℚ :=
  match takeDigits s with
  | (ids, r1) =>
    match r1 with
    | '.' :: r2 =>
      match takeDigits r2 with
      | (fds, r3) =>
        if ids = [] && fds = [] then none
        else parseFloatExp ((digitsVal (ids ++ fds) : ℚ) / 10 ^ fds.length) r3
    | _ =>
      if ids = [] then none
      else parseFloatExp ((digitsVal ids : ℚ)) r1

def stripPyWs (s : List Char) : List Char :=
  (skipWs ((skipWs s).reverse)).reverse

def pyFloatOfStr (s : List Char) : Option ℚ :=
  match stripPyWs s with
  | '-' :: r => (parseFloatBody r).map (fun q => -q)
  | '+' :: r => parseFloatBody r
  | r => parseFloatBody r

/-- `float(x)` on a JSON value: numbers, booleans (`float(True) = 1.0`)
and numeric strings coerce; `None`, lists and dicts raise `TypeError`. -/
def pyFloat : JsonVal → Option ℚ
  | .num m e => some ((m : ℚ) / 10 ^ e)
  | .bool b => some (if b then 1 else 0)
  | .str s => pyFloatOfStr s
  | _ => none

def keyItemName : List Char := ['i', 't', 'e', 'm', '_', 'n', 'a', 'm', 'e']

def keyAmount : List Char := ['a', 'm', 'o', 'u', 'n', 't']

def keyRate : List Char := ['r', 'a', 't', 'e']

def keyQuantity : List Char := ['q', 'u', 'a', 'n', 't', 'i', 't', 'y']

def keyItems : List Char := ['i', 't', 'e', 'm', 's']

def keyPageType : List Char := ['p', 'a', 'g', 'e', '_', 't', 'y', 'p', 'e']

/-- The dict built at lines 189-194: `item_name` copied verbatim, the
three numeric fields cast with `float(...)`. -/
structure CoercedItem where
  item_name : JsonVal
  item_amount : ℚ
  item_rate : ℚ
  item_quantity : ℚ

/-- One iteration of the per-item loop (lines 187-198): the `try` block
returns the coerced dict, any `KeyError`/`TypeError`/`ValueError` in it
hits `except: continue` — the item is dropped. -/
def coerceItem (item : JsonVal) : Option CoercedItem :=
  match item with
  | .obj fs =>
    match jsonGet fs keyItemName, (jsonGet fs keyAmount).bind pyFloat,
        (jsonGet fs keyRate).bind pyFloat, (jsonGet fs keyQuantity).bind pyFloat with
    | some n, some a, some r, some q => some ⟨n, a, r, q⟩
    | _, _, _, _ => none
  | _ => none

/-- `data.get("items", [])` followed by `for item in ...` (line 187):
a missing key iterates the `[]` default; an array iterates its elements;
a string iterates one-character strings, a dict iterates its keys (which
the coercion then drops); a number, boolean or `None` raises `TypeError`
out of the loop. -/
def itemsOf (fs : JsonObj) : Except PipelineError (List JsonVal) :=
  match jsonGet fs keyItems with
  | none => .ok []
  | some (.arr xs) => .ok xs.toList
  | some (.str s) => .ok (s.map (fun c => .str [c]))
  | some (.obj fs') => .ok ((objKeys fs').map (fun k => .str k))
  | some _ => .error .itemsNotIterable

/-- `data.get("page_type", "Bill Detail")` (line 202). -/
def pageTypeOf (fs : JsonObj) : JsonVal :=
  (jsonGet fs keyPageType).getD (.str ['B', 'i', 'l', 'l', ' ', 'D', 'e', 't', 'a', 'i', 'l'])

structure RawPage where
  page_no : Nat
  page_type : JsonVal
  bill_items : List CoercedItem

/-- The page loop of lines 178-204: one model call per page, `find_json`
on the response, per-item coercion, pagewise and global accumulation; the
first page-level exception aborts the whole request. -/
def processPages (G : ModelOracle) :
    List PILImage → Nat →
      Except PipelineError (List RawPage × List CoercedItem × Nat × Nat × Nat)
  | [], _ => .ok ([], [], 0, 0, 0)
  | img :: restPages, n =>
    match G.generate img with
    | (txt, t, i, o) =>
      match find_json txt with
      | .error .noJson => .error .noJson
      | .error .malformedJson => .error .malformedJson
      | .ok (.obj fs) =>
        match itemsOf fs with
        | .error e => .error e
        | .ok items =>
          let page_items := items.filterMap coerceItem
          match processPages G restPages (n + 1) with
          | .error e => .error e
          | .ok (pws, alls, tt, ti, tko) =>
            .ok (⟨n, pageTypeOf fs, page_items⟩ :: pws, page_items ++ alls,
              t + tt, i + ti, o + tko)
      | .ok _ => .error .itemsNotIterable

/-- A coerced item entering `similarity` / response validation: the name
must be a string (otherwise `.lower()` raises / `BillItem` validation
fails). -/
def toBillItem (c : CoercedItem) : Option BillItem :=
  match c.item_name with
  | .str s => some ⟨s, c.item_amount, c.item_rate, c.item_quantity⟩
  | _ => none

structure PageOut where
  page_no : Nat
  page_type : JsonVal
  bill_items : List BillItem

def validatePage (p : RawPage) : Option PageOut :=
  (p.bill_items.mapM toBillItem).map (fun bs => ⟨p.page_no, p.page_type, bs⟩)

/-- `extract_from_document` (lines 168-209): rasterize, process pages from
page number 1, then dedupe the accumulated list once to obtain
`total_item_count`. -/
def extract_from_document (D : Decoders) (G : ModelOracle) (file_bytes : List Nat)
    (url : List Char) :
    Except PipelineError (List PageOut × List BillItem × Nat × Nat × Nat × Nat) :=
  match pdf_or_image_to_pages D file_bytes url with
  | none => .error .decodingError
  | some pages =>
    match processPages G pages 1 with
    | .error e => .error e
    | .ok (pws, alls, tt, ti, tko) =>
      match alls.mapM toBillItem, pws.mapM validatePage with
      | some bills, some pws' =>
        let uniqueItems := dedupe_items bills
        .ok (pws', uniqueItems, uniqueItems.length, tt, ti, tko)
      | _, _ => .error .nameTypeError

/-- `extract_bill` (lines 223-240): download then extract; a download
failure is fatal with its own error kind. -/
def extract_bill (download : Option (List Nat)) (D : Decoders) (G : ModelOracle)
    (url : List Char) :
    Except PipelineError (List PageOut × List BillItem × Nat × Nat × Nat × Nat) :=
  match download with
  | none => .error .downloadError
  | some raw => extract_from_document D G raw url

theorem mapM_option_forall2 {α β : Type} (f : α → Option β) :
    ∀ (l : List α) (bs : List β), l.mapM f = some bs →
      List.Forall₂ (fun a b => f a = some b) l bs := by
  intro l
  induction l with
  | nil =>
    intro bs h
    simp only [List.mapM_nil, Option.pure_def, Option.some.injEq] at h
    subst h
    exact List.Forall₂.nil
  | cons a l ih =>
    intro bs h
    rw [List.mapM_cons] at h
    cases hfa : f a with
    | none => rw [hfa] at h; simp at h
    | some b =>
      rw [hfa] at h
      cases hml : l.mapM f with
      | none => rw [hml] at h; simp at h
      | some bs' =>
        rw [hml] at h
        simp only [Option.pure_def, Option.bind_eq_bind, Option.some_bind,
          Option.some.injEq] at h
        subst h
        exact List.Forall₂.cons hfa (ih bs' hml)

theorem mapM_option_filterMap {α β : Type} (f : α → Option β)
    (l : List α) (bs : List β) (h : l.mapM f = some bs) : l.filterMap f = bs := by
  have h2 := mapM_option_forall2 f l bs h
  clear h
  induction h2 with
  | nil => rfl
  | cons hab _ ih => rw [List.filterMap_cons, hab, ih]

theorem forall2_compose {α β γ : Type} {R : α → β → Prop} {S : β → γ → Prop}
    {T : α → γ → Prop} (hcomp : ∀ a b c, R a b → S b c → T a c) :
    ∀ {l1 : List α} {l2 : List β} {l3 : List γ},
      List.Forall₂ R l1 l2 → List.Forall₂ S l2 l3 → List.Forall₂ T l1 l3 := by
  intro l1 l2 l3 h12
  induction h12 generalizing l3 with
  | nil =>
    intro h23
    cases h23
    exact List.Forall₂.nil
  | cons hab h' ih =>
    intro h23
    cases h23 with
    | cons hbc h'' => exact List.Forall₂.cons (hcomp _ _ _ hab hbc) (ih h'')

theorem dedupeLoop_length_le (threshold tol : ℚ) :
    ∀ (xs acc : List BillItem),
      (dedupeLoop threshold tol acc xs).length ≤ acc.length + xs.length := by
  intro xs
  induction xs with
  | nil => intro acc; simp [dedupeLoop]
  | cons it rest ih =>
    intro acc
    rw [dedupeLoop]
    by_cases h : acc.any (dupOf threshold tol it) = true
    · rw [if_pos h]
      have := ih acc
      simp only [List.length_cons]
      omega
    · rw [if_neg h]
      have h2 := ih (acc ++ [it])
      have h3 : (acc ++ [it]).length = acc.length + 1 := by simp
      rw [h3] at h2
      simp only [List.length_cons]
      omega

theorem processPages_inv (G : ModelOracle) :
    ∀ (imgs : List PILImage) (n : Nat) (pws : List RawPage) (alls : List CoercedItem)
      (tt ti tko : Nat),
      processPages G imgs n = .ok (pws, alls, tt, ti, tko) →
      alls = (pws.map (fun p => p.bill_items)).flatten ∧
      List.Forall₂ (fun img pw => ∃ fs items,
        find_json (G.generate img).1 = .ok (.obj fs) ∧ itemsOf fs = .ok items ∧
        pw.bill_items = items.filterMap coerceItem) imgs pws := by
  intro imgs
  induction imgs with
  | nil =>
    intro n pws alls tt ti tko h
    simp only [processPages, Except.ok.injEq, Prod.mk.injEq] at h
    obtain ⟨h1, h2, _⟩ := h
    subst h1
    subst h2
    exact ⟨rfl, List.Forall₂.nil⟩
  | cons img restPages ih =>
    intro n pws alls tt ti tko h
    simp only [processPages] at h
    split at h
    · exact absurd h (by simp)
    · simp at h
    · rename_i fs heqf
      split at h
      · exact absurd h (by simp)
      · rename_i items heqi
        split at h
        · exact absurd h (by simp)
        · rename_i pws' alls' tt' ti' tko' heqp
          simp only [Except.ok.injEq, Prod.mk.injEq] at h
          obtain ⟨h1, h2, _⟩ := h
          subst h1
          subst h2
          obtain ⟨ha, hf⟩ := ih (n + 1) pws' alls' tt' ti' tko' heqp
          constructor
          · rw [ha]
            simp
          · exact List.Forall₂.cons ⟨fs, items, heqf, heqi, rfl⟩ hf
    · exact absurd h (by simp)

theorem validate_bill_items (pwsR : List RawPage) (pwsO : List PageOut)
    (h : List.Forall₂ (fun p q => validatePage p = some q) pwsR pwsO) :
    pwsO.map (fun p => p.bill_items) =
      pwsR.map (fun p => p.bill_items.filterMap toBillItem) := by
  induction h with
  | nil => rfl
  | cons hpq _ ih =>
    simp only [List.map_cons, ih]
    congr 1
    rename_i p q l1 l2 _
    unfold validatePage at hpq
    cases hm : p.bill_items.mapM toBillItem with
    | none => rw [hm] at hpq; simp at hpq
    | some bs =>
      rw [hm] at hpq
      simp only [Option.map_some', Option.some.injEq] at hpq
      rw [← hpq]
      exact (mapM_option_filterMap toBillItem _ _ hm).symm

/-- C2: on every successful run, `total_item_count` is the length of the
deduplicated list obtained by running `dedupe_items` once over the
concatenation of all pages' coerced items in page order, while each
page's `bill_items` holds every successfully coerced item of that page
without deduplication — hence the count is at most the sum of the
`bill_items` lengths. -/
theorem C2_total_count_deduped (D : Decoders) (G : ModelOracle) (file_bytes : List Nat)
    (url : List Char) (pws : List PageOut) (uniq : List BillItem)
    (count tt ti tko : Nat)
    (h : extract_from_document D G file_bytes url = .ok (pws, uniq, count, tt, ti, tko)) :
    uniq = dedupe_items ((pws.map (fun p => p.bill_items)).flatten) ∧
    count = uniq.length ∧
    count ≤ ((pws.map (fun p => p.bill_items.length)).sum) ∧
    ∃ pages, pdf_or_image_to_pages D file_bytes url = some pages ∧
      List.Forall₂ (fun img pw => ∃ fs items,
        find_json (G.generate img).1 = .ok (.obj fs) ∧ itemsOf fs = .ok items ∧
        pw.bill_items = items.filterMap (fun it => (coerceItem it).bind toBillItem))
        pages pws := by
  unfold extract_from_document at h
  split at h
  · exact absurd h (by simp)
  · rename_i pages hpages
    split at h
    · exact absurd h (by simp)
    · rename_i pwsR alls tt' ti' tko' hproc
      split at h
      · rename_i bills pwsO hbills hvalid
        simp only [Except.ok.injEq, Prod.mk.injEq] at h
        obtain ⟨h1, h2, h3, _⟩ := h
        subst h1
        subst h2
        subst h3
        obtain ⟨ha, hf⟩ := processPages_inv G pages 1 pwsR alls tt' ti' tko' hproc
        have hv2 := mapM_option_forall2 validatePage pwsR pwsO hvalid
        have hbfm := mapM_option_filterMap toBillItem alls bills hbills
        have hmapbi := validate_bill_items pwsR pwsO hv2
        have hflat : (pwsO.map (fun p => p.bill_items)).flatten = bills := by
          rw [hmapbi, ← hbfm, ha]
          rw [List.filterMap_flatten, List.map_map]
          rfl
        refine ⟨?_, rfl, ?_, ?_⟩
        · rw [hflat]
        · have hlen1 : (dedupe_items bills).length ≤ bills.length := by
            rw [dedupe_items]
            have := dedupeLoop_length_le (92 / 100) 1 bills []
            simpa using this
          have hlen2 : bills.length = ((pwsO.map (fun p => p.bill_items.length)).sum) := by
            rw [← hflat, List.length_flatten, List.map_map]
            rfl
          rw [← hlen2]
          exact hlen1
        · refine ⟨pages, hpages, ?_⟩
          refine forall2_compose ?_ hf hv2
          intro img p q hR hS
          obtain ⟨fs, items, hfind, hitems, hbi⟩ := hR
          refine ⟨fs, items, hfind, hitems, ?_⟩
          unfold validatePage at hS
          cases hm : p.bill_items.mapM toBillItem with
          | none => rw [hm] at hS; simp at hS
          | some bs =>
            rw [hm] at hS
            simp only [Option.map_some', Option.some.injEq] at hS
            rw [← hS]
            have := mapM_option_filterMap toBillItem _ _ hm
            rw [← this, hbi, List.filterMap_filterMap]
      · exact absurd h (by simp)

/-- C5: when every rasterization fallback fails (PDF conversion and image
decode both raise on this input), the rasterizer yields no pages, the
whole request fails with the dedicated `decodingError` kind — distinct
from every other failure kind — and no partial result is returned. -/
theorem C5_decoding_error_fatal (D : Decoders) (G : ModelOracle)
    (raw : List Nat) (url : List Char)
    (hcv : D.convert_from_bytes raw = none)
    (hio : D.image_open raw = none) :
    pdf_or_image_to_pages D raw url = none ∧
    extract_bill (some raw) D G url = .error .decodingError ∧
    (∀ res, extract_bill (some raw) D G url ≠ .ok res) ∧
    (PipelineError.decodingError ≠ .downloadError ∧
     PipelineError.decodingError ≠ .noJson ∧
     PipelineError.decodingError ≠ .malformedJson ∧
     PipelineError.decodingError ≠ .itemsNotIterable ∧
     PipelineError.decodingError ≠ .nameTypeError) := by
  have hras : pdf_or_image_to_pages D raw url = none := by
    rw [pdf_or_image_to_pages]
    by_cases h : endsWithPdf url <;> simp [h, hcv, hio]
  have hrun : extract_bill (some raw) D G url = .error .decodingError := by
    show extract_from_document D G raw url = .error .decodingError
    rw [extract_from_document, hras]
  refine ⟨hras, hrun, ?_, by decide⟩
  intro res hok
  rw [hrun] at hok
  exact Except.noConfusion hok

def failDecoders : Decoders := ⟨fun _ => none, fun _ => none⟩

def constOracle : ModelOracle := ⟨fun _ => ([], 0, 0, 0)⟩

theorem C5_witness :
    failDecoders.convert_from_bytes [] = none ∧
    failDecoders.image_open [] = none ∧
    extract_bill (some []) failDecoders constOracle [] = .error .decodingError :=
  ⟨rfl, rfl, (C5_decoding_error_fatal failDecoders constOracle [] [] rfl rfl).2.1⟩

/-- C8: per-item normalization — an item with an `item_name` field and
`amount`, `rate`, `quantity` fields that `float(...)` accepts is coerced
with the three numbers cast and the name copied verbatim; an item is
dropped exactly when a required field is missing or fails numeric
coercion; and a dropped item leaves the rest of the page's items
processed (the page is not aborted). -/
theorem C8_per_item_coercion (fs : JsonObj) :
    (∀ n va vr vq qa qr qq,
      jsonGet fs keyItemName = some n →
      jsonGet fs keyAmount = some va → pyFloat va = some qa →
      jsonGet fs keyRate = some vr → pyFloat vr = some qr →
      jsonGet fs keyQuantity = some vq → pyFloat vq = some qq →
      coerceItem (.obj fs) = some ⟨n, qa, qr, qq⟩) ∧
    (coerceItem (.obj fs) = none ↔
      (jsonGet fs keyItemName = none ∨
       (jsonGet fs keyAmount).bind pyFloat = none ∨
       (jsonGet fs keyRate).bind pyFloat = none ∨
       (jsonGet fs keyQuantity).bind pyFloat = none)) ∧
    (∀ (pre post : List JsonVal), coerceItem (.obj fs) = none →
      (pre ++ .obj fs :: post).filterMap coerceItem =
        (pre ++ post).filterMap coerceItem) := by
  refine ⟨?_, ?_, ?_⟩
  · intro n va vr vq qa qr qq h1 h2 h3 h4 h5 h6 h7
    simp [coerceItem, h1, h2, h3, h4, h5, h6, h7]
  · cases hn : jsonGet fs keyItemName with
    | none => simp [coerceItem, hn]
    | some n =>
      cases ha : (jsonGet fs keyAmount).bind pyFloat with
      | none => simp [coerceItem, hn, ha]
      | some a =>
        cases hr : (jsonGet fs keyRate).bind pyFloat with
        | none => simp [coerceItem, hn, ha, hr]
        | some r =>
          cases hq : (jsonGet fs keyQuantity).bind pyFloat with
          | none => simp [coerceItem, hn, ha, hr, hq]
          | some q => simp [coerceItem, hn, ha, hr, hq]
  · intro pre post hnone
    rw [List.filterMap_append, List.filterMap_append, List.filterMap_cons, hnone]

def demoGoodFields : JsonObj :=
  .cons keyItemName (.str ['A'])
    (.cons keyAmount (.num 15 1)
      (.cons keyRate (.num 25 1)
        (.cons keyQuantity (.bool true) .nil)))

def demoBadFields : JsonObj :=
  .cons keyItemName (.str ['B'])
    (.cons keyAmount .null
      (.cons keyRate (.num 1 0)
        (.cons keyQuantity (.num 1 0) .nil)))

theorem C8_witness :
    coerceItem (.obj demoGoodFields) =
      some ⟨.str ['A'], (15 : ℚ) / 10 ^ 1, (25 : ℚ) / 10 ^ 1, 1⟩ ∧
    coerceItem (.obj demoBadFields) = none ∧
    ([JsonVal.obj demoGoodFields, .obj demoBadFields,
        .obj demoGoodFields].filterMap coerceItem =
      [JsonVal.obj demoGoodFields, .obj demoGoodFields].filterMap coerceItem) := by
  have hg := C8_per_item_coercion demoGoodFields
  have hb := C8_per_item_coercion demoBadFields
  have hbad : coerceItem (.obj demoBadFields) = none :=
    hb.2.1.mpr (Or.inr (Or.inl rfl))
  refine ⟨?_, hbad, ?_⟩
  · exact hg.1 (.str ['A']) (.num 15 1) (.num 25 1) (.bool true)
      ((15 : ℚ) / 10 ^ 1) ((25 : ℚ) / 10 ^ 1) 1 rfl rfl rfl rfl rfl rfl rfl
  · exact hb.2.2 [.obj demoGoodFields] [.obj demoGoodFields] hbad

def demoDecoders : Decoders := ⟨fun _ => none, fun _ => some ⟨7, .other 0⟩⟩

def demoText : List Char :=
  "\x7b\"page_type\": \"Pharmacy\", \"items\": [\x7b\"item_name\": \"A\", \"amount\": true, \"rate\": true, \"quantity\": true\x7d, \"bad\"]\x7d".toList

def demoOracle : ModelOracle := ⟨fun _ => (demoText, 5, 3, 2)⟩

def demoPages : List PageOut :=
  [⟨1, .str "Pharmacy".toList, [⟨"A".toList, 1, 1, 1⟩]⟩]

def demoUniq : List BillItem := [⟨"A".toList, 1, 1, 1⟩]

theorem C2_witness :
    extract_from_document demoDecoders demoOracle [] [] =
      .ok (demoPages, demoUniq, 1, 5, 3, 2) ∧
    (demoUniq = dedupe_items ((demoPages.map (fun p => p.bill_items)).flatten) ∧
     1 = demoUniq.length ∧
     1 ≤ ((demoPages.map (fun p => p.bill_items.length)).sum) ∧
     ∃ pages, pdf_or_image_to_pages demoDecoders [] [] = some pages ∧
       List.Forall₂ (fun img pw => ∃ fs items,
         find_json (demoOracle.generate img).1 = .ok (.obj fs) ∧
         itemsOf fs = .ok items ∧
         pw.bill_items = items.filterMap (fun it => (coerceItem it).bind toBillItem))
         pages demoPages) :=
  ⟨rfl, C2_total_count_deduped demoDecoders demoOracle [] [] demoPages demoUniq
    1 5 3 2 rfl⟩
